import Mathlib

/-!
# Verification of the federation-next query-plan operation model

A shallow embedding of `src/query_plan/operation.rs` and `src/query_graph/mod.rs`
(apollo federation-next): GraphQL directive canonicalization, selection keys, the
normalized selection tree with its restricted selection map, merging, rebasing,
the named-fragment table with dependency-ordered mapping, the sibling-`__typename`
optimization, and the query-graph runtime-type advancement.

Modelling conventions:
* `String` stands for GraphQL `Name`/`NodeStr`; string order is the byte order of
  the character codepoints (`str_le`), mirroring Rust's `Ord for str` on ASCII names.
* `IndexMap`/`IndexSet` are modelled as insertion-ordered association lists / lists
  whose operations mirror the `indexmap` semantics used by the source
  (`insert` keeps the position of an existing key, `shift_remove` preserves order).
* Rust `Result<_, FederationError>` is `Except FederationError _`; a `panic!`,
  `unreachable!` or `todo!` is modelled as a distinguished error value; a loop that
  can fail to exit is modelled with a distinguished `nonTermination` error.
* The schema-position module of the repository is not among the sources; the few
  helpers the operation code calls on it are modelled from the spec and marked
  `Modelled from the spec:` in their doc comments.
-/

namespace Federation

/-! ## Strings, arguments, directives -/

/-- Byte-order comparison on names, standing in for Rust's `Ord for str` used by
`sort_by(|a1, a2| a1.name.cmp(&a2.name))` (GraphQL names are ASCII). -/
def str_lt_chars : List Char → List Char → Bool
  | [], [] => false
  | [], _ :: _ => true
  | _ :: _, [] => false
  | a :: as, b :: bs =>
    if a.val < b.val then true else if b.val < a.val then false else str_lt_chars as bs

def str_le (a b : String) : Bool := !(str_lt_chars b.data a.data)

/-- An analogue of `apollo_compiler::ast::Argument`: a named argument with an
opaque value (argument values never influence the modelled logic). -/
structure Argument where
  name : String
  value : String
deriving DecidableEq, Repr

/-- An analogue of `apollo_compiler::ast::Directive`. -/
structure Directive where
  name : String
  arguments : List Argument
deriving DecidableEq, Repr

/-- An analogue of `apollo_compiler::ast::DirectiveList`. -/
abbrev DirectiveList := List Directive

/-- One insertion step of the stable sort below. -/
def insert_argument_sorted (a : Argument) : List Argument → List Argument
  | [] => [a]
  | b :: rest =>
    if str_le a.name b.name then a :: b :: rest else b :: insert_argument_sorted a rest

/-- A stable sort of arguments by argument name, standing in for
`arguments.sort_by(|a1, a2| a1.name.cmp(&a2.name))` (Rust's `sort_by` is stable). -/
def sort_arguments_by_name (l : List Argument) : List Argument :=
  l.foldr insert_argument_sorted []

/-- `directives_with_sorted_arguments` (operation.rs:2464): clones the directive
list and sorts each directive's arguments by argument name, leaving the order of
the directives themselves untouched. -/
def directives_with_sorted_arguments (directives : DirectiveList) : DirectiveList :=
  directives.map (fun d => { d with arguments := sort_arguments_by_name d.arguments })

/-- `is_deferred_selection` (operation.rs:2475): `directives.has("defer")`. -/
def is_deferred_selection (directives : DirectiveList) : Bool :=
  directives.any (fun d => d.name == "defer")

/-! ## Errors -/

/-- An analogue of `FederationError`.  `internal` is
`SingleFederationError::Internal`; `unimplemented` models a `todo!()` panic;
`unreachable` models an `unreachable!()` panic; `nonTermination` models a loop
that never exits. -/
inductive FederationError where
  | internal (message : String)
  | unimplemented
  | unreachable
  | nonTermination
  | outOfFuel
deriving DecidableEq, Repr

/-! ## Schema model

The `crate::schema` module is not among the sources.  The pieces of it the
operation and query-graph code consult are modelled here as plain data. -/

inductive TypeKind where
  | objectType
  | interfaceType
  | unionType
  | scalarType
  | enumType
deriving DecidableEq, Repr

/-- A field definition: its name and the inner named type of its return type
(`field.ty.inner_named_type()`). -/
structure FieldDef where
  name : String
  returnTypeName : String
deriving DecidableEq, Repr

/-- Modelled from the spec: one type definition of a validated schema — its kind,
its fields (empty for scalars/enums/unions), the object types among its possible
runtime types (for interfaces: the implementers; for unions: the members), and
whether an object type carries the federation `@interfaceObject` directive. -/
structure TypeDef where
  name : String
  kind : TypeKind
  fields : List FieldDef
  runtimeTypeNames : List String
  interfaceObjectDirective : Bool
deriving DecidableEq, Repr

/-- An analogue of `ValidFederationSchema`: a named collection of type
definitions. -/
structure Schema where
  types : List TypeDef
deriving DecidableEq, Repr

def Schema.get_type (s : Schema) (n : String) : Option TypeDef :=
  s.types.find? (fun td => td.name == n)

/-- `CompositeTypeDefinitionPosition`: an object, interface, or union type
position; equality is variant plus name, exactly as for the Rust enum. -/
inductive CompositeTypeDefinitionPosition where
  | objectPos (typeName : String)
  | interfacePos (typeName : String)
  | unionPos (typeName : String)
deriving DecidableEq, Repr

namespace CompositeTypeDefinitionPosition

def type_name : CompositeTypeDefinitionPosition → String
  | .objectPos n => n
  | .interfacePos n => n
  | .unionPos n => n

def is_interface_type : CompositeTypeDefinitionPosition → Bool
  | .interfacePos _ => true
  | _ => false

def is_union_type : CompositeTypeDefinitionPosition → Bool
  | .unionPos _ => true
  | _ => false

end CompositeTypeDefinitionPosition

/-- `TryFrom` of a type definition into a composite type position: succeeds for
object/interface/union kinds only. -/
def TypeDef.toCompositePosition (td : TypeDef) : Option CompositeTypeDefinitionPosition :=
  match td.kind with
  | .objectType => some (.objectPos td.name)
  | .interfaceType => some (.interfacePos td.name)
  | .unionType => some (.unionPos td.name)
  | _ => none

/-- `schema.get_type(name).and_then(CompositeTypeDefinitionPosition::try_from)`,
the `Option`-shaped lookup used where failures are swallowed. -/
def Schema.get_composite_type (s : Schema) (n : String) :
    Option CompositeTypeDefinitionPosition :=
  (s.get_type n).bind TypeDef.toCompositePosition

/-- `schema.get_type(name)?.try_into()?`, the error-propagating lookup of a
composite type position. -/
def Schema.get_composite_type_e (s : Schema) (n : String) :
    Except FederationError CompositeTypeDefinitionPosition :=
  match s.get_type n with
  | none => .error (.internal "type unexpectedly missing")
  | some td =>
    match td.toCompositePosition with
    | some pos => .ok pos
    | none => .error (.internal "type is not a composite type")

/-- Modelled from the spec: `ValidFederationSchema::possible_runtime_types` —
"the possible runtime object types" of a composite type (§4.1): the type itself
for an object type, the declared implementers/members for an interface/union.
The schema module implementing this is not among the sources. -/
def Schema.possible_runtime_types (s : Schema) (pos : CompositeTypeDefinitionPosition) :
    Except FederationError (List String) :=
  match s.get_type pos.type_name with
  | none => .error (.internal "type unexpectedly missing")
  | some td =>
    match td.kind with
    | .objectType => .ok [td.name]
    | .interfaceType => .ok td.runtimeTypeNames
    | .unionType => .ok td.runtimeTypeNames
    | _ => .error (.internal "type is not a composite type")

/-- `is_interface_object` (operation.rs:2529): whether the object type carries
the federation `@interfaceObject` directive (the directive lookup through the
federation spec definition is modelled as the stored flag). -/
def is_interface_object (s : Schema) (objTypeName : String) : Bool :=
  match s.get_type objTypeName with
  | some td => td.kind == .objectType && td.interfaceObjectDirective
  | none => false

/-- `runtime_types_intersect` (operation.rs:2543). -/
def runtime_types_intersect (type1 type2 : CompositeTypeDefinitionPosition)
    (schema : Schema) : Bool :=
  if type1 = type2 then true
  else
    match schema.possible_runtime_types type1, schema.possible_runtime_types type2 with
    | .ok runtimes1, .ok runtimes2 =>
      runtimes1.any (fun r1 => runtimes2.any (fun r2 => r1 == r2))
    | _, _ => false

/-- `FieldDefinitionPosition`: a parent composite type position plus a field
name; `.parent()` and `.field_name()` project the components, `.type_name()`
is the parent type's name. -/
structure FieldDefinitionPosition where
  parent : CompositeTypeDefinitionPosition
  fieldName : String
deriving DecidableEq, Repr

/-- Modelled from the spec: `CompositeTypeDefinitionPosition::field(name)` —
"the field must exist, under same-name lookup, on the new parent", "with
existence of the named field in the destination left as the real check" (§4.5).
The schema-position module implementing the lookup is not among the sources, so
the destination schema in scope at the call site is threaded in explicitly. -/
def CompositeTypeDefinitionPosition.field (schema : Schema)
    (parent : CompositeTypeDefinitionPosition) (name : String) :
    Except FederationError FieldDefinitionPosition :=
  match schema.get_type parent.type_name with
  | some td =>
    if td.fields.any (fun f => f.name == name) then .ok ⟨parent, name⟩
    else .error (.internal "field not found on type")
  | none => .error (.internal "type unexpectedly missing")

/-- `CompositeTypeDefinitionPosition::introspection_typename_field()`: the
`__typename` field position on the given parent type. -/
def CompositeTypeDefinitionPosition.introspection_typename_field
    (parent : CompositeTypeDefinitionPosition) : FieldDefinitionPosition :=
  ⟨parent, "__typename"⟩

/-! ## Selection keys (operation.rs:342) -/

/-- `NormalizedSelectionKey`: the identity of a selection for merge purposes.
A `SelectionId` (the process-wide unique id drawn for deferred selections) is
modelled as a `Nat`. -/
inductive NormalizedSelectionKey where
  | field (responseName : String) (directives : DirectiveList)
  | fragmentSpread (name : String) (directives : DirectiveList)
  | deferredFragmentSpread (deferredId : Nat)
  | inlineFragment (typeCondition : Option String) (directives : DirectiveList)
  | deferredInlineFragment (deferredId : Nat)
deriving DecidableEq, Repr

/-! ## Selection element data (operation.rs:907, 991, 1159) -/

/-- `NormalizedFieldData` (operation.rs:907). -/
structure NormalizedFieldData where
  schema : Schema
  field_position : FieldDefinitionPosition
  alias_ : Option String
  arguments : List Argument
  directives : DirectiveList
deriving DecidableEq, Repr

namespace NormalizedFieldData

def name (d : NormalizedFieldData) : String := d.field_position.fieldName

def response_name (d : NormalizedFieldData) : String :=
  d.alias_.getD d.name

/-- `HasNormalizedSelectionKey for NormalizedFieldData` (operation.rs:937). -/
def key (d : NormalizedFieldData) : NormalizedSelectionKey :=
  .field d.response_name (directives_with_sorted_arguments d.directives)

end NormalizedFieldData

/-- `NormalizedFragmentSpreadData` (operation.rs:991).  The field
`parent_type_position` is modelled from the spec: fragment-spread rebasing uses
"the enclosing parent type" (§4.5), and the source (operation.rs:2062) reads a
`parentType` field that the struct does not declare. -/
structure NormalizedFragmentSpreadData where
  schema : Schema
  fragment_name : String
  directives : DirectiveList
  selection_id : Nat
  spread_directives : DirectiveList
  type_condition_position : CompositeTypeDefinitionPosition
  parent_type_position : CompositeTypeDefinitionPosition
deriving DecidableEq, Repr

/-- `HasNormalizedSelectionKey for NormalizedFragmentSpreadData`
(operation.rs:1004). -/
def NormalizedFragmentSpreadData.key (d : NormalizedFragmentSpreadData) :
    NormalizedSelectionKey :=
  if is_deferred_selection d.directives then
    .deferredFragmentSpread d.selection_id
  else
    .fragmentSpread d.fragment_name (directives_with_sorted_arguments d.directives)

/-- `NormalizedInlineFragmentData` (operation.rs:1159). -/
structure NormalizedInlineFragmentData where
  schema : Schema
  parent_type_position : CompositeTypeDefinitionPosition
  type_condition_position : Option CompositeTypeDefinitionPosition
  directives : DirectiveList
  selection_id : Nat
deriving DecidableEq, Repr

/-- `HasNormalizedSelectionKey for NormalizedInlineFragmentData`
(operation.rs:1168). -/
def NormalizedInlineFragmentData.key (d : NormalizedInlineFragmentData) :
    NormalizedSelectionKey :=
  if is_deferred_selection d.directives then
    .deferredInlineFragment d.selection_id
  else
    .inlineFragment (d.type_condition_position.map (fun pos => pos.type_name))
      (directives_with_sorted_arguments d.directives)

/-! ## The normalized selection tree (operation.rs:76, 379)

`NormalizedField`/`NormalizedFragmentSpread`/`NormalizedInlineFragment` cache
their key next to their data, but their only constructors set the cache to
`data.key()`, so the cache is modelled by computing the key from the data. -/

mutual
/-- `NormalizedSelection` (operation.rs:379): a field selection (data, optional
sub-selection set, sibling-typename attachment), a fragment-spread selection
(data plus the spread fragment's selection set), or an inline-fragment
selection (data plus selection set). -/
inductive NormalizedSelection where
  | field (data : NormalizedFieldData) (selectionSet : Option NormalizedSelectionSet)
      (siblingTypename : Option String)
  | fragmentSpread (data : NormalizedFragmentSpreadData)
      (selectionSet : NormalizedSelectionSet)
  | inlineFragment (data : NormalizedInlineFragmentData)
      (selectionSet : NormalizedSelectionSet)
deriving Repr

/-- `NormalizedSelectionSet` (operation.rs:76): a schema, the composite type
position the set is evaluated against, and the insertion-ordered selection map
(modelled as an association list from key to selection). -/
inductive NormalizedSelectionSet where
  | mk (schema : Schema) (type_position : CompositeTypeDefinitionPosition)
      (selections : List (NormalizedSelectionKey × NormalizedSelection))
deriving Repr
end

namespace NormalizedSelectionSet

def schema : NormalizedSelectionSet → Schema
  | .mk s _ _ => s

def type_position : NormalizedSelectionSet → CompositeTypeDefinitionPosition
  | .mk _ tp _ => tp

def selections : NormalizedSelectionSet →
    List (NormalizedSelectionKey × NormalizedSelection)
  | .mk _ _ sels => sels

end NormalizedSelectionSet

/-- `HasNormalizedSelectionKey for NormalizedSelection` (operation.rs:482). -/
def NormalizedSelection.key : NormalizedSelection → NormalizedSelectionKey
  | .field d _ _ => d.key
  | .fragmentSpread d _ => d.key
  | .inlineFragment d _ => d.key

/-! ## The restricted selection map (operation.rs:100-329)

`NormalizedSelectionMap` wraps an `IndexMap<NormalizedSelectionKey,
NormalizedSelection>` and restricts mutation so that every entry's key stays
equal to its value's computed key.  It is modelled as an insertion-ordered
association list; the operations mirror the `indexmap` semantics the source
relies on. -/

abbrev NormalizedSelectionMap := List (NormalizedSelectionKey × NormalizedSelection)

namespace NormalizedSelectionMap

/-- `NormalizedSelectionMap::new`. -/
def new : NormalizedSelectionMap := []

/-- `NormalizedSelectionMap::insert` (operation.rs:130): inserts keyed by the
value's own computed key, with `IndexMap::insert` semantics — an existing key
keeps its position and gets the new value, a new key is appended at the end. -/
def insert (m : NormalizedSelectionMap) (value : NormalizedSelection) :
    NormalizedSelectionMap :=
  if m.any (fun e => e.1 == value.key) then
    m.map (fun e => if e.1 == value.key then (e.1, value) else e)
  else
    m ++ [(value.key, value)]

/-- `NormalizedSelectionMap::remove` (operation.rs:134): `shift_remove`, which
removes the entry while maintaining the order of the other entries. -/
def remove (m : NormalizedSelectionMap) (key : NormalizedSelectionKey) :
    NormalizedSelectionMap :=
  m.filter (fun e => e.1 ≠ key)

/-- The lookup backing `get`/`get_mut`/`entry` occupancy on the map. -/
def lookup (m : NormalizedSelectionMap) (key : NormalizedSelectionKey) :
    Option NormalizedSelection :=
  (m.find? (fun e => e.1 == key)).map Prod.snd

/-- `VacantEntry::insert` (operation.rs:302): for a key known to be vacant,
inserting a selection whose computed key differs from the entry's key is an
internal error; otherwise the entry is appended. -/
def vacant_insert (m : NormalizedSelectionMap) (key : NormalizedSelectionKey)
    (value : NormalizedSelection) : Except FederationError NormalizedSelectionMap :=
  if key = value.key then .ok (m ++ [(key, value)])
  else .error (.internal "Key mismatch when inserting selection into vacant entry")

/-- The mutation available through
`NormalizedFieldSelectionValue::get_selection_set_mut` (operation.rs:214): a
`get_mut` view of a field selection lets the caller replace the sub-selection
set and nothing else. -/
def set_field_selection_set (m : NormalizedSelectionMap)
    (key : NormalizedSelectionKey) (newSet : Option NormalizedSelectionSet) :
    NormalizedSelectionMap :=
  m.map (fun e =>
    if e.1 == key then
      match e.2 with
      | .field d _ sib => (e.1, .field d newSet sib)
      | v => (e.1, v)
    else e)

/-- The mutation available through
`NormalizedFieldSelectionValue::get_sibling_typename_mut` (operation.rs:218). -/
def set_field_sibling_typename (m : NormalizedSelectionMap)
    (key : NormalizedSelectionKey) (newSibling : Option String) :
    NormalizedSelectionMap :=
  m.map (fun e =>
    if e.1 == key then
      match e.2 with
      | .field d ss _ => (e.1, .field d ss newSibling)
      | v => (e.1, v)
    else e)

/-- The mutation available through
`NormalizedInlineFragmentSelectionValue::get_selection_set_mut`
(operation.rs:256). -/
def set_inline_fragment_selection_set (m : NormalizedSelectionMap)
    (key : NormalizedSelectionKey) (newSet : NormalizedSelectionSet) :
    NormalizedSelectionMap :=
  m.map (fun e =>
    if e.1 == key then
      match e.2 with
      | .inlineFragment d _ => (e.1, .inlineFragment d newSet)
      | v => (e.1, v)
    else e)

end NormalizedSelectionMap

/-- The invariant of `NormalizedSelectionMap` (§3, operation.rs:105): every map
entry's key equals the computed key of its stored selection value. -/
def selection_map_invariant (m : NormalizedSelectionMap) : Prop :=
  ∀ e ∈ m, e.1 = e.2.key

/-! ## The worth-using test (operation.rs:759) -/

/-- `NamedFragments::is_selection_set_worth_using` (operation.rs:759): an empty
set is not worth using; a singleton set is worth using only if its selection is
not a field selection or is a field selection with a sub-selection set; larger
sets are worth using. -/
def NamedFragments.is_selection_set_worth_using
    (selection_set : NormalizedSelectionSet) : Bool :=
  match selection_set.selections with
  | [] => false
  | [(_, sel)] =>
    match sel with
    | .field _ selectionSet _ => selectionSet.isSome
    | _ => true
  | _ => true

/-! ## The query graph model (query_graph/mod.rs) -/

inductive SchemaRootDefinitionKind where
  | query
  | mutation
  | subscription
deriving DecidableEq, Repr

/-- `OutputTypeDefinitionPosition`: the position of any GraphQL output type. -/
inductive OutputTypeDefinitionPosition where
  | objectPos (typeName : String)
  | interfacePos (typeName : String)
  | unionPos (typeName : String)
  | scalarPos (typeName : String)
  | enumPos (typeName : String)
deriving DecidableEq, Repr

/-- `TryFrom<OutputTypeDefinitionPosition> for CompositeTypeDefinitionPosition`. -/
def OutputTypeDefinitionPosition.toCompositePosition :
    OutputTypeDefinitionPosition → Option CompositeTypeDefinitionPosition
  | .objectPos n => some (.objectPos n)
  | .interfacePos n => some (.interfacePos n)
  | .unionPos n => some (.unionPos n)
  | _ => none

/-- `QueryGraphNodeType` (mod.rs:61). -/
inductive QueryGraphNodeType where
  | schemaType (pos : OutputTypeDefinitionPosition)
  | federatedRootType (rootKind : SchemaRootDefinitionKind)
deriving DecidableEq, Repr

/-- `QueryGraphNode` (mod.rs:27). -/
structure QueryGraphNode where
  type_ : QueryGraphNodeType
  source : String
  has_reachable_cross_subgraph_edges : Bool
  provide_id : Option Nat
  root_kind : Option SchemaRootDefinitionKind
deriving DecidableEq, Repr

/-- `QueryGraphEdgeTransition` (mod.rs:119). -/
inductive QueryGraphEdgeTransition where
  | fieldCollection (source : String) (field_definition_position : FieldDefinitionPosition)
      (is_part_of_provides : Bool)
  | downcast (source : String) (from_type_position : CompositeTypeDefinitionPosition)
      (to_type_position : CompositeTypeDefinitionPosition)
  | keyResolution
  | rootTypeResolution (root_kind : SchemaRootDefinitionKind)
  | subgraphEnteringTransition
  | interfaceObjectFakeDownCast (source : String)
      (from_type_position : CompositeTypeDefinitionPosition) (to_type_name : String)
deriving DecidableEq, Repr

/-- `QueryGraphEdge` (mod.rs:79): a transition plus optional conditions. -/
structure QueryGraphEdge where
  transition : QueryGraphEdgeTransition
  conditions : Option NormalizedSelectionSet
deriving Repr

/-- `QueryGraph` (mod.rs:219).  The petgraph `DiGraph` is modelled as a node
list (indexed by position) and an edge list of `(head, tail, weight)` triples;
`types_to_nodes_by_source`, `root_kinds_to_nodes_by_source` and
`non_trivial_followup_edges` play no role in the modelled operations and are
omitted. -/
structure QueryGraph where
  current_source : String
  nodes : List QueryGraphNode
  edges : List (Nat × Nat × QueryGraphEdge)
  sources : List (String × Schema)
deriving Repr

namespace QueryGraph

/-- `QueryGraph::node_weight` (mod.rs:272). -/
def node_weight (g : QueryGraph) (node : Nat) :
    Except FederationError QueryGraphNode :=
  match g.nodes.get? node with
  | some w => .ok w
  | none => .error (.internal "Node unexpectedly missing")

/-- `QueryGraph::edge_weight` (mod.rs:290). -/
def edge_weight (g : QueryGraph) (edge : Nat) :
    Except FederationError QueryGraphEdge :=
  match g.edges.get? edge with
  | some (_, _, w) => .ok w
  | none => .error (.internal "Edge unexpectedly missing")

/-- `QueryGraph::edge_endpoints` (mod.rs:308). -/
def edge_endpoints (g : QueryGraph) (edge : Nat) :
    Except FederationError (Nat × Nat) :=
  match g.edges.get? edge with
  | some (head, tail, _) => .ok (head, tail)
  | none => .error (.internal "Edge unexpectedly missing")

/-- `QueryGraph::schema_by_source` (mod.rs:324). -/
def schema_by_source (g : QueryGraph) (source : String) :
    Except FederationError Schema :=
  match (g.sources.find? (fun e => e.1 == source)).map Prod.snd with
  | some s => .ok s
  | none => .error (.internal "Schema unexpectedly missing")

/-- `IndexSet::extend`: append while keeping first occurrences only. -/
def extend_dedup (acc new : List String) : List String :=
  new.foldl (fun a n => if a.contains n then a else a ++ [n]) acc

/-- `QueryGraph::advance_possible_runtime_types` (mod.rs:504): given the
possible runtime types at the head of the given edge, the possible runtime
types after traversing the edge. -/
def advance_possible_runtime_types (g : QueryGraph)
    (possible_runtime_types : List String) (edge : Option Nat) :
    Except FederationError (List String) := do
  match edge with
  | none => return possible_runtime_types
  | some edge => do
    let edge_weight ← g.edge_weight edge
    let (_, tail) ← g.edge_endpoints edge
    let tail_weight ← g.node_weight tail
    match tail_weight.type_ with
    | .federatedRootType _ =>
      throw (.internal "Unexpectedly encountered federation root node as tail node.")
    | .schemaType tail_type_pos =>
      match edge_weight.transition with
      | .fieldCollection source field_definition_position _ =>
        match tail_type_pos.toCompositePosition with
        | none => return []
        | some _ => do
          let schema ← g.schema_by_source source
          let mut_result ← possible_runtime_types.foldlM
            (fun (acc : List String) possible_runtime_type => do
              match (schema.get_type possible_runtime_type).bind
                  (fun td => td.fields.find?
                    (fun f => f.name == field_definition_position.fieldName)) with
              | none => return acc
              | some field => do
                let field_type_pos ← schema.get_composite_type_e field.returnTypeName
                let rts ← schema.possible_runtime_types field_type_pos
                return extend_dedup acc rts)
            []
          return mut_result
      | .downcast source _ to_type_position => do
        let schema ← g.schema_by_source source
        let rts ← schema.possible_runtime_types to_type_position
        return rts.filter (fun r => possible_runtime_types.contains r)
      | .keyResolution => do
        match tail_type_pos.toCompositePosition with
        | none => throw (.internal "type is not a composite type")
        | some tail_composite => do
          let schema ← g.schema_by_source tail_weight.source
          schema.possible_runtime_types tail_composite
      | .rootTypeResolution _ =>
        match tail_type_pos with
        | .objectPos n => return [n]
        | _ => throw (.internal "Unexpectedly encountered non-object root operation type.")
      | .subgraphEnteringTransition =>
        match tail_type_pos with
        | .objectPos n => return [n]
        | _ => throw (.internal "Unexpectedly encountered non-object root operation type.")
      | .interfaceObjectFakeDownCast _ _ _ => return possible_runtime_types

end QueryGraph

/-! ## Named fragments (operation.rs:500, 628) -/

/-- `NormalizedFragment` (operation.rs:500).  The `fragment_usages` /
`included_fragment_names` fields are memoization caches of
`collect_used_fragment_names` and are modelled by recomputation. -/
structure NormalizedFragment where
  schema : Schema
  name : String
  type_condition_position : CompositeTypeDefinitionPosition
  directives : DirectiveList
  selection_set : NormalizedSelectionSet
deriving Repr

/-- `NamedFragments` (operation.rs:628): a table from fragment name to fragment
definition.  The `HashMap` is modelled as an association list; its iteration
order (arbitrary for a `HashMap`) is the list order. -/
abbrev NamedFragments := List (String × NormalizedFragment)

namespace NamedFragments

/-- `NamedFragments::default`. -/
def default : NamedFragments := []

/-- `NamedFragments::insert` (operation.rs:643): `HashMap::insert` keyed by the
fragment's name — replaces the value of an existing key, otherwise adds. -/
def insert (nf : NamedFragments) (fragment : NormalizedFragment) : NamedFragments :=
  if nf.any (fun e => e.1 == fragment.name) then
    nf.map (fun e => if e.1 == fragment.name then (e.1, fragment) else e)
  else
    nf ++ [(fragment.name, fragment)]

/-- `NamedFragments::contains` (operation.rs:647). -/
def contains (nf : NamedFragments) (name : String) : Bool :=
  nf.any (fun e => e.1 == name)

/-- `NamedFragments::is_empty` (operation.rs:651). -/
def is_empty (nf : NamedFragments) : Bool := nf.length == 0

end NamedFragments

/-! ## Rebasing (operation.rs:599, 833, 1072, 1665, 1852, 2046, 2146) -/

/-- `RebaseErrorHandlingOption` (operation.rs:599). -/
inductive RebaseErrorHandlingOption where
  | ignoreError
  | throwError
deriving DecidableEq, Repr

/-- `NormalizedField::can_rebase_on` (operation.rs:893): the parent types share
a name, or the field's parent type is an interface or union. -/
def NormalizedFieldData.can_rebase_on (d : NormalizedFieldData)
    (parent_type : CompositeTypeDefinitionPosition) : Bool :=
  let field_parent_type := d.field_position.parent
  field_parent_type.type_name == parent_type.type_name
    || field_parent_type.is_interface_type
    || field_parent_type.is_union_type

/-- `NormalizedField::rebase_on` (operation.rs:833).  (`NormalizedField` is its
data plus a key cache always equal to `data.key()`, so the function is stated
on the data.) -/
def NormalizedFieldData.rebase_on (d : NormalizedFieldData)
    (parent_type : CompositeTypeDefinitionPosition) (schema : Schema)
    (error_handling : RebaseErrorHandlingOption) :
    Except FederationError (Option NormalizedFieldData) :=
  if d.field_position.parent = parent_type then
    .ok (some d)
  else if d.name = "__typename" then
    match schema.possible_runtime_types parent_type with
    | .error e => .error e
    | .ok rts =>
      if rts.any (fun t => is_interface_object schema t) then
        match error_handling with
        | .throwError =>
          .error (.internal "Cannot add selection of field to selection set of parent type that is potentially an interface object type at runtime")
        | .ignoreError => .ok none
      else
        .ok (some { d with field_position := parent_type.introspection_typename_field })
  else
    match CompositeTypeDefinitionPosition.field schema parent_type d.name with
    | .error e => .error e
    | .ok parent_field =>
      if d.can_rebase_on parent_type then
        .ok (some { d with field_position := parent_field })
      else
        match error_handling with
        | .ignoreError => .ok none
        | .throwError =>
          .error (.internal "Cannot add selection of field to selection set of parent type")

/-- `NormalizedInlineFragment::can_rebase_on` (operation.rs:1117): no type
condition always rebases (with no condition); otherwise the condition's type
must exist as a composite type in the parent schema and its runtime types must
intersect the parent's. -/
def NormalizedInlineFragmentData.can_rebase_on (d : NormalizedInlineFragmentData)
    (parent_type : CompositeTypeDefinitionPosition) (parent_schema : Schema) :
    Bool × Option CompositeTypeDefinitionPosition :=
  match d.type_condition_position with
  | none => (true, none)
  | some condition_position =>
    match parent_schema.get_composite_type condition_position.type_name with
    | some rebased_condition =>
      if runtime_types_intersect parent_type rebased_condition parent_schema then
        (true, some rebased_condition)
      else (false, none)
    | none => (false, none)

/-- `NormalizedInlineFragment::rebase_on` (operation.rs:1072). -/
def NormalizedInlineFragmentData.rebase_on (d : NormalizedInlineFragmentData)
    (parent_type : CompositeTypeDefinitionPosition) (schema : Schema)
    (error_handling : RebaseErrorHandlingOption) :
    Except FederationError (Option NormalizedInlineFragmentData) := do
  if d.parent_type_position = parent_type then
    return some d
  match d.can_rebase_on parent_type schema with
  | (false, _) =>
    match error_handling with
    | .throwError =>
      throw (.internal "Cannot add fragment of condition to parent type")
    | .ignoreError => return none
  | (true, rebased_condition) =>
    return some { d with type_condition_position := rebased_condition }

mutual
/-- The member-wise dispatch inside `NormalizedSelectionSet::rebase_on`
(operation.rs:1676), fused with the per-kind `rebase_on` methods:
the field case is `NormalizedFieldSelection::rebase_on` (operation.rs:1852,
split on whether the field has a sub-selection set), the fragment-spread case
is `NormalizedFragmentSpreadSelection::rebase_on` (operation.rs:2046), and the
inline-fragment case is `NormalizedInlineFragmentSelection::rebase_on`
(operation.rs:2146). -/
def NormalizedSelection.rebase_on (s : NormalizedSelection)
    (parent_type : CompositeTypeDefinitionPosition) (fragments : NamedFragments)
    (schema : Schema) (error_handling : RebaseErrorHandlingOption) :
    Except FederationError (Option NormalizedSelection) :=
  match s with
  | .field data none siblingTypename =>
    -- NormalizedFieldSelection::rebase_on, `self.selection_set == None` case
    if data.field_position.parent = parent_type then
      .ok (some (.field data none siblingTypename))
    else
      match data.rebase_on parent_type schema error_handling with
      | .error e => .error e
      | .ok none => .ok none
      | .ok (some rebased) => .ok (some (.field rebased none siblingTypename))
  | .field data (some selection_set) siblingTypename =>
    -- NormalizedFieldSelection::rebase_on, `self.selection_set == Some(..)` case
    if data.field_position.parent = parent_type then
      .ok (some (.field data (some selection_set) siblingTypename))
    else
      match data.rebase_on parent_type schema error_handling with
      | .error e => .error e
      | .ok none => .ok none
      | .ok (some rebased) =>
        -- `rebased.data().field_position.type_name()` is the name of the
        -- rebased field position's parent type.
        let rebased_base_type_name := rebased.field_position.parent.type_name
        match schema.get_composite_type_e rebased_base_type_name with
        | .error e => .error e
        | .ok rebased_type =>
          if rebased_type = selection_set.type_position then
            .ok (some (.field rebased (some selection_set) siblingTypename))
          else
            match NormalizedSelectionSet.rebase_on selection_set rebased_type
                fragments schema error_handling with
            | .error e => .error e
            | .ok rebased_selection_set =>
              if rebased_selection_set.selections.isEmpty then
                .ok none
              else
                .ok (some (.field rebased (some rebased_selection_set) siblingTypename))
  | .fragmentSpread data selectionSet =>
    -- NormalizedFragmentSpreadSelection::rebase_on: the spread is grafted as-is
    -- when the enclosing parent type is unchanged; the remaining case is
    -- `todo!()` in the source (modelled as the `unimplemented` panic).  The
    -- comparison reads the spec-modelled `parent_type_position` field (the
    -- source reads a nonexistent `parentType` field there).
    if data.parent_type_position = parent_type then
      .ok (some (.fragmentSpread data selectionSet))
    else
      .error .unimplemented
  | .inlineFragment data selectionSet =>
    -- NormalizedInlineFragmentSelection::rebase_on
    if data.parent_type_position = parent_type then
      .ok (some (.inlineFragment data selectionSet))
    else
      match data.rebase_on parent_type schema error_handling with
      | .error e => .error e
      | .ok none => .ok none
      | .ok (some rebased_fragment) =>
        let rebased_casted_type :=
          rebased_fragment.type_condition_position.getD
            rebased_fragment.parent_type_position
        if rebased_casted_type = parent_type then
          .ok (some (.inlineFragment rebased_fragment selectionSet))
        else
          match NormalizedSelectionSet.rebase_on selectionSet rebased_casted_type
              fragments schema error_handling with
          | .error e => .error e
          | .ok rebased_selection_set =>
            if rebased_selection_set.selections.isEmpty then
              .ok none
            else
              .ok (some (.inlineFragment rebased_fragment rebased_selection_set))

/-- Rebasing each member of a selection list in order (the `.iter().map(..)`
then `collect::<Result<Vec<Option<_>>>>` of operation.rs:1673-1687). -/
def selection_list_rebase_on
    (sels : List (NormalizedSelectionKey × NormalizedSelection))
    (parent_type : CompositeTypeDefinitionPosition) (fragments : NamedFragments)
    (schema : Schema) (error_handling : RebaseErrorHandlingOption) :
    Except FederationError (List (Option NormalizedSelection)) :=
  match sels with
  | [] => .ok []
  | (_, s) :: rest =>
    match NormalizedSelection.rebase_on s parent_type fragments schema error_handling with
    | .error e => .error e
    | .ok r =>
      match selection_list_rebase_on rest parent_type fragments schema error_handling with
      | .error e => .error e
      | .ok rs => .ok (r :: rs)

/-- `NormalizedSelectionSet::rebase_on` (operation.rs:1665): rebases every
member, inserts the successful results into a fresh map, and keeps the
*original* schema and type position on the resulting set. -/
def NormalizedSelectionSet.rebase_on (selection_set : NormalizedSelectionSet)
    (parent_type : CompositeTypeDefinitionPosition) (fragments : NamedFragments)
    (schema : Schema) (error_handling : RebaseErrorHandlingOption) :
    Except FederationError NormalizedSelectionSet :=
  match selection_set with
  | .mk self_schema self_type_position self_selections =>
    match selection_list_rebase_on self_selections parent_type fragments
        schema error_handling with
    | .error e => .error e
    | .ok rebased_results =>
      .ok (.mk self_schema self_type_position
        ((rebased_results.filterMap id).foldl NormalizedSelectionMap.insert
          NormalizedSelectionMap.new))
end

/-! ## Normalization against a parent type (operation.rs:477, 1772)

`NormalizedSelection::normalize` is `todo!()` in the source; calling it panics.
The panic is modelled as the `unimplemented` error and threaded through
`NormalizedSelectionSet::normalize` (whose own Rust signature is infallible but
which panics as soon as it visits any selection). -/

/-- `NormalizedSelection::normalize` (operation.rs:477): `todo!()`. -/
def NormalizedSelection.normalize (_s : NormalizedSelection)
    (_parent_type : CompositeTypeDefinitionPosition) :
    Except FederationError NormalizedSelection :=
  .error .unimplemented

/-- The per-selection loop of `NormalizedSelectionSet::normalize`
(operation.rs:1777-1780). -/
def selection_list_normalize
    (sels : List (NormalizedSelectionKey × NormalizedSelection))
    (parent_type : CompositeTypeDefinitionPosition) :
    Except FederationError (List NormalizedSelection) :=
  match sels with
  | [] => .ok []
  | (_, s) :: rest =>
    match s.normalize parent_type with
    | .error e => .error e
    | .ok n =>
      match selection_list_normalize rest parent_type with
      | .error e => .error e
      | .ok ns => .ok (n :: ns)

/-- `NormalizedSelectionSet::normalize` (operation.rs:1772): normalizes each
selection into a fresh map, keeping the schema and type position. -/
def NormalizedSelectionSet.normalize (selection_set : NormalizedSelectionSet)
    (parent_type : CompositeTypeDefinitionPosition) :
    Except FederationError NormalizedSelectionSet :=
  match selection_set with
  | .mk self_schema self_type_position self_selections =>
    match selection_list_normalize self_selections parent_type with
    | .error e => .error e
    | .ok normalized =>
      .ok (.mk self_schema self_type_position
        (normalized.foldl NormalizedSelectionMap.insert NormalizedSelectionMap.new))

/-! ## Fragment usages (operation.rs:458, 590) -/

mutual
/-- `NormalizedSelection::collect_used_fragment_names` (operation.rs:458): a
field recurses into its sub-selection set, an inline fragment recurses into its
selection set, and a fragment spread contributes its fragment name (without
recursing).  The aggregating `HashMap<Name, i32>` of counts is modelled by the
list of contributed names in traversal order. -/
def NormalizedSelection.collect_used_fragment_names :
    NormalizedSelection → List String
  | .field _ none _ => []
  | .field _ (some selectionSet) _ => selectionSet.collect_used_fragment_names
  | .inlineFragment _ selectionSet => selectionSet.collect_used_fragment_names
  | .fragmentSpread data _ => [data.fragment_name]

/-- `NormalizedSelectionSet::collect_used_fragment_names` (operation.rs:1789). -/
def NormalizedSelectionSet.collect_used_fragment_names :
    NormalizedSelectionSet → List String
  | .mk _ _ sels => selection_list_collect_used_fragment_names sels

def selection_list_collect_used_fragment_names :
    List (NormalizedSelectionKey × NormalizedSelection) → List String
  | [] => []
  | (_, s) :: rest =>
    s.collect_used_fragment_names ++ selection_list_collect_used_fragment_names rest
end

/-- `NormalizedFragment::fragment_usages` (operation.rs:590), reduced to its
key set: the distinct names of the fragments the fragment's body spreads. -/
def NormalizedFragment.fragment_usage_names (f : NormalizedFragment) : List String :=
  f.selection_set.collect_used_fragment_names.eraseDups

/-! ## Dependency-ordered fragment mapping (operation.rs:693) -/

/-- `FragmentDependencies` (operation.rs:697). -/
structure FragmentDependencies where
  fragment : NormalizedFragment
  depends_on : List String
deriving Repr

/-- The mapper argument of `map_in_dependency_order`.  Its Rust type returns
`Option<NormalizedFragment>`, but a mapper may panic (the one used by
`NamedFragments::rebase_on` reaches a `todo!()`), so the model lets it return
an error. -/
abbrev FragmentMapper :=
  NormalizedFragment → NamedFragments → Except FederationError (Option NormalizedFragment)

/-- The `can_remove` condition of the retain pass (operation.rs:726-729): all
dependencies of the fragment are already mapped or removed. -/
def can_remove (info : FragmentDependencies) (mapped_fragments : NamedFragments)
    (removed_fragments : List String) : Bool :=
  info.depends_on.all
    (fun n => mapped_fragments.contains n || removed_fragments.contains n)

/-- One `retain` pass of the `while` loop of `map_in_dependency_order`
(operation.rs:725-739): entries are visited in order; an entry whose
dependencies are all already mapped or removed is processed — the mapper is
invoked on it with the *current* mapped table (which grows during the pass) —
and dropped from the retained list; other entries are retained.  The returned
trace lists the fragments on which the mapper was invoked, in invocation
order (the trace is observational instrumentation; no computed value depends
on it). -/
def fragments_retain_pass (mapper : FragmentMapper) :
    List (String × FragmentDependencies) → List String → NamedFragments →
    List String →
    Except FederationError
      (List (String × FragmentDependencies) × List String × NamedFragments × List String)
  | [], removed_fragments, mapped_fragments, trace =>
    .ok ([], removed_fragments, mapped_fragments, trace)
  | (name, info) :: rest, removed_fragments, mapped_fragments, trace =>
    if can_remove info mapped_fragments removed_fragments then
      match mapper info.fragment mapped_fragments with
      | .error e => .error e
      | .ok (some mapped) =>
        fragments_retain_pass mapper rest removed_fragments
          (mapped_fragments.insert mapped) (trace ++ [name])
      | .ok none =>
        fragments_retain_pass mapper rest (removed_fragments ++ [name])
          mapped_fragments (trace ++ [name])
    else
      match fragments_retain_pass mapper rest removed_fragments mapped_fragments trace with
      | .error e => .error e
      | .ok (kept, removed', mapped', trace') =>
        .ok ((name, info) :: kept, removed', mapped', trace')

/-- The `while !fragments_map.is_empty()` loop of `map_in_dependency_order`
(operation.rs:722).  A pass that processes nothing leaves the state unchanged,
so the Rust loop would then spin forever; this is modelled as the
`nonTermination` error.  The `fuel` argument bounds the number of passes; with
`fuel = entries.length` it can never be exhausted, because every pass that does
not error processes at least one entry (see
`fragments_map_loop_fuel_irrelevant`). -/
def fragments_map_loop (mapper : FragmentMapper) :
    Nat → List (String × FragmentDependencies) → List String → NamedFragments →
    List String → Except FederationError (NamedFragments × List String)
  | fuel, entries, removed_fragments, mapped_fragments, trace =>
    if entries.isEmpty then .ok (mapped_fragments, trace)
    else
      match fuel with
      | 0 => .error .nonTermination
      | fuel + 1 =>
        match fragments_retain_pass mapper entries removed_fragments
            mapped_fragments trace with
        | .error e => .error e
        | .ok (kept, removed', mapped', trace') =>
          if kept.length = entries.length then .error .nonTermination
          else fragments_map_loop mapper fuel kept removed' mapped' trace'

/-- The `fragments_map` built by `map_in_dependency_order`
(operation.rs:701-718): each fragment keyed by its name, paired with its
direct usage names. -/
def NamedFragments.dependency_table (self : NamedFragments) :
    List (String × FragmentDependencies) :=
  self.map (fun e => (e.2.name, ⟨e.2, e.2.fragment_usage_names⟩))

/-- `NamedFragments::map_in_dependency_order` (operation.rs:693), together with
the invocation trace of its mapper. -/
def NamedFragments.map_in_dependency_order_traced (self : NamedFragments)
    (mapper : FragmentMapper) :
    Except FederationError (Option NamedFragments × List String) :=
  let fragments_map : List (String × FragmentDependencies) := self.dependency_table
  match fragments_map_loop mapper fragments_map.length fragments_map []
      NamedFragments.default [] with
  | .error e => .error e
  | .ok (mapped_fragments, trace) =>
    .ok (if mapped_fragments.is_empty then none else some mapped_fragments, trace)

/-- `NamedFragments::map_in_dependency_order` (operation.rs:693). -/
def NamedFragments.map_in_dependency_order (self : NamedFragments)
    (mapper : FragmentMapper) : Except FederationError (Option NamedFragments) :=
  match self.map_in_dependency_order_traced mapper with
  | .error e => .error e
  | .ok (result, _) => .ok result

/-- `NamedFragments::rebase_on` (operation.rs:659).  For each fragment in
dependency order: re-target the type condition onto the destination schema
(failures fall through), rebase the body with the `IgnoreError` policy
(failures fall through), re-normalize the rebased body at the top level
(`NormalizedSelectionSet::normalize` — which panics, `todo!()`, on any
non-empty selection list), test the result with
`is_selection_set_worth_using` — and then, mirroring the source, the
constructed `NormalizedFragment::new(..)` value is discarded and the mapper
falls through to `None` on every path. -/
def NamedFragments.rebase_on (self : NamedFragments) (schema : Schema) :
    Except FederationError (Option NamedFragments) :=
  self.map_in_dependency_order (fun fragment named_fragments =>
    match schema.get_composite_type fragment.type_condition_position.type_name with
    | some rebased_type =>
      match fragment.selection_set.rebase_on rebased_type named_fragments schema
          .ignoreError with
      | .ok rebased_selection_0 =>
        -- Rebasing can leave some inefficiencies in some case, so we do a
        -- top-level normalization to keep things clean.
        match rebased_selection_0.normalize rebased_type with
        | .ok rebased_selection =>
          if NamedFragments.is_selection_set_worth_using rebased_selection then
            -- The source constructs `NormalizedFragment::new(schema.clone(),
            -- fragment.name.clone(), rebased_type.clone(),
            -- fragment.directives.clone(), rebased_selection)` here and
            -- discards the value; every path of the closure returns `None`.
            let _discarded : NormalizedFragment :=
              { schema := schema, name := fragment.name,
                type_condition_position := rebased_type,
                directives := fragment.directives,
                selection_set := rebased_selection }
            .ok none
          else
            .ok none
        | .error e => .error e
      | .error _ => .ok none
    | none => .ok none)

/-! ## Merging (operation.rs:1387-1530, 1908-1961, 2072-2095, 2198-2233)

The merge functions recurse through the payloads being merged (a field's
sub-selection sets contain further selections to merge).  The recursion is
made structural over an explicit `fuel` bound on the nesting depth, consumed
once per `merge_selections_into` level; exhaustion yields the distinguished
`outOfFuel` error, so any `.ok` result is a faithful run of the source. -/

/-- The payload of a field selection: `NormalizedFieldSelection` minus its
`Arc` wrapper. -/
abbrev FieldSelectionPayload :=
  NormalizedFieldData × Option NormalizedSelectionSet × Option String

abbrev FragmentSpreadSelectionPayload :=
  NormalizedFragmentSpreadData × NormalizedSelectionSet

abbrev InlineFragmentSelectionPayload :=
  NormalizedInlineFragmentData × NormalizedSelectionSet

/-- `IndexMap::entry(key).or_insert_with(Vec::new).push(value)`. -/
def merge_bucket_push {α : Type} (b : List (NormalizedSelectionKey × List α))
    (k : NormalizedSelectionKey) (v : α) : List (NormalizedSelectionKey × List α) :=
  if b.any (fun e => e.1 == k) then
    b.map (fun e => if e.1 == k then (e.1, e.2 ++ [v]) else e)
  else
    b ++ [(k, [v])]

def merge_bucket_lookup {α : Type} (b : List (NormalizedSelectionKey × List α))
    (k : NormalizedSelectionKey) : Option (List α) :=
  (b.find? (fun e => e.1 == k)).map Prod.snd

/-- The first loop of `merge_selections_into` (operation.rs:1429-1500): visit
the incoming selections in order; a selection whose key is already occupied has
its payload pushed onto the per-kind bucket for that key (an occupied entry of
a different kind is an internal error); a selection with a vacant key is
inserted through the vacant entry (whose key-match check it passes by
construction). -/
def merge_split_selections (m : NormalizedSelectionMap)
    (fields : List (NormalizedSelectionKey × List FieldSelectionPayload))
    (fragment_spreads : List (NormalizedSelectionKey × List FragmentSpreadSelectionPayload))
    (inline_fragments : List (NormalizedSelectionKey × List InlineFragmentSelectionPayload)) :
    List NormalizedSelection →
    Except FederationError
      (NormalizedSelectionMap ×
        List (NormalizedSelectionKey × List FieldSelectionPayload) ×
        List (NormalizedSelectionKey × List FragmentSpreadSelectionPayload) ×
        List (NormalizedSelectionKey × List InlineFragmentSelectionPayload))
  | [] => .ok (m, fields, fragment_spreads, inline_fragments)
  | other_selection :: rest =>
    let other_key := other_selection.key
    match NormalizedSelectionMap.lookup m other_key with
    | some existing =>
      match existing, other_selection with
      | .field _ _ _, .field d ss sib =>
        merge_split_selections m (merge_bucket_push fields other_key (d, ss, sib))
          fragment_spreads inline_fragments rest
      | .field _ _ _, _ =>
        .error (.internal "Field selection key for field references non-field selection")
      | .fragmentSpread _ _, .fragmentSpread d ss =>
        merge_split_selections m fields
          (merge_bucket_push fragment_spreads other_key (d, ss)) inline_fragments rest
      | .fragmentSpread _ _, _ =>
        .error (.internal "Fragment spread selection key for fragment references non-field selection")
      | .inlineFragment _ _, .inlineFragment d ss =>
        merge_split_selections m fields fragment_spreads
          (merge_bucket_push inline_fragments other_key (d, ss)) rest
      | .inlineFragment _ _, _ =>
        .error (.internal "Inline fragment selection key under parent type references non-field selection")
    | none =>
      match NormalizedSelectionMap.vacant_insert m other_key other_selection with
      | .error e => .error e
      | .ok m' => merge_split_selections m' fields fragment_spreads inline_fragments rest

/-- `NormalizedSelectionSet::merge_into` (operation.rs:1387), abstracted over
the recursive `merge_selections_into` call: checks each incoming set's schema
and type position against this set's, flattens their selection values in
order, and merges them in. -/
def selection_set_merge_into_aux
    (rec : NormalizedSelectionMap → List NormalizedSelection →
      Except FederationError NormalizedSelectionMap)
    (self : NormalizedSelectionSet) (others : List NormalizedSelectionSet) :
    Except FederationError NormalizedSelectionSet :=
  if others.isEmpty then .ok self
  else
    match self with
    | .mk self_schema self_type_position self_selections =>
      match others.foldlM
          (fun (acc : List NormalizedSelection) other =>
            if other.schema ≠ self_schema then
              Except.error (FederationError.internal
                "Cannot merge selection sets from different schemas")
            else if other.type_position ≠ self_type_position then
              Except.error (FederationError.internal
                "Cannot merge selection set for type into a selection set for another type")
            else
              Except.ok (acc ++ other.selections.map Prod.snd))
          [] with
      | .error e => .error e
      | .ok selections_to_merge =>
        match rec self_selections selections_to_merge with
        | .error e => .error e
        | .ok merged => .ok (.mk self_schema self_type_position merged)

/-- `NormalizedFieldSelectionValue::merge_into` (operation.rs:1911), abstracted
over the recursive `merge_selections_into` call: every incoming field must have
the same schema and field position; a field with a sub-selection set requires
one of every incoming field (and vice versa); the sub-selection sets are merged
together. -/
def field_selection_value_merge_into_aux
    (rec : NormalizedSelectionMap → List NormalizedSelection →
      Except FederationError NormalizedSelectionMap)
    (self : FieldSelectionPayload) (others : List FieldSelectionPayload) :
    Except FederationError FieldSelectionPayload :=
  if others.isEmpty then .ok self
  else
    match self with
    | (self_data, self_selection_set, self_sibling) =>
      match others.foldlM
          (fun (acc : List NormalizedSelectionSet) other =>
            match other with
            | (other_data, other_selection_set, _) =>
              if other_data.schema ≠ self_data.schema then
                Except.error (FederationError.internal
                  "Cannot merge field selections from different schemas")
              else if other_data.field_position ≠ self_data.field_position then
                Except.error (FederationError.internal
                  "Cannot merge field selection for field into a field selection for another field")
              else
                match self_selection_set, other_selection_set with
                | some _, some o => Except.ok (acc ++ [o])
                | some _, none =>
                  Except.error (FederationError.internal
                    "Field has composite type but not a selection set")
                | none, some _ =>
                  Except.error (FederationError.internal
                    "Field has non-composite type but also has a selection set")
                | none, none => Except.ok acc)
          [] with
      | .error e => .error e
      | .ok selection_sets =>
        match self_selection_set with
        | some s =>
          match selection_set_merge_into_aux rec s selection_sets with
          | .error e => .error e
          | .ok s' => .ok (self_data, some s', self_sibling)
        | none => .ok (self_data, none, self_sibling)

/-- `NormalizedFragmentSpreadSelectionValue::merge_into` (operation.rs:2075):
spreads with the same key are definitionally identical; merging only checks the
schemas match and is otherwise a no-op. -/
def fragment_spread_selection_value_merge_into
    (self : FragmentSpreadSelectionPayload)
    (others : List FragmentSpreadSelectionPayload) :
    Except FederationError FragmentSpreadSelectionPayload :=
  if others.isEmpty then .ok self
  else
    match others.foldlM
        (fun (_ : Unit) other =>
          if other.1.schema ≠ self.1.schema then
            Except.error (FederationError.internal
              "Cannot merge fragment spread from different schemas")
          else Except.ok ())
        () with
    | .error e => .error e
    | .ok _ => .ok self

/-- `NormalizedInlineFragmentSelectionValue::merge_into` (operation.rs:2201),
abstracted over the recursive `merge_selections_into` call. -/
def inline_fragment_selection_value_merge_into_aux
    (rec : NormalizedSelectionMap → List NormalizedSelection →
      Except FederationError NormalizedSelectionMap)
    (self : InlineFragmentSelectionPayload)
    (others : List InlineFragmentSelectionPayload) :
    Except FederationError InlineFragmentSelectionPayload :=
  if others.isEmpty then .ok self
  else
    match self with
    | (self_data, self_selection_set) =>
      match others.foldlM
          (fun (acc : List NormalizedSelectionSet) other =>
            match other with
            | (other_data, other_selection_set) =>
              if other_data.schema ≠ self_data.schema then
                Except.error (FederationError.internal
                  "Cannot merge inline fragment from different schemas")
              else if other_data.parent_type_position ≠ self_data.parent_type_position then
                Except.error (FederationError.internal
                  "Cannot merge inline fragment of parent type into an inline fragment of another parent type")
              else Except.ok (acc ++ [other_selection_set]))
          [] with
      | .error e => .error e
      | .ok selection_sets =>
        match selection_set_merge_into_aux rec self_selection_set selection_sets with
        | .error e => .error e
        | .ok s' => .ok (self_data, s')

/-- The second loop of `merge_selections_into` (operation.rs:1501-1527): visit
the map entries in order (`iter_mut` — keys and their positions are untouched)
and, for each entry whose key has a bucket, replace the value by the per-kind
merge of the value with its bucket. -/
def merge_apply_buckets
    (rec : NormalizedSelectionMap → List NormalizedSelection →
      Except FederationError NormalizedSelectionMap)
    (fields : List (NormalizedSelectionKey × List FieldSelectionPayload))
    (fragment_spreads : List (NormalizedSelectionKey × List FragmentSpreadSelectionPayload))
    (inline_fragments : List (NormalizedSelectionKey × List InlineFragmentSelectionPayload)) :
    NormalizedSelectionMap → Except FederationError NormalizedSelectionMap
  | [] => .ok []
  | (key, value) :: rest =>
    match value with
    | .field d ss sib =>
      match merge_bucket_lookup fields key with
      | some others =>
        match field_selection_value_merge_into_aux rec (d, ss, sib) others with
        | .error e => .error e
        | .ok (d', ss', sib') =>
          match merge_apply_buckets rec fields fragment_spreads inline_fragments rest with
          | .error e => .error e
          | .ok rest' => .ok ((key, .field d' ss' sib') :: rest')
      | none =>
        match merge_apply_buckets rec fields fragment_spreads inline_fragments rest with
        | .error e => .error e
        | .ok rest' => .ok ((key, .field d ss sib) :: rest')
    | .fragmentSpread d ss =>
      match merge_bucket_lookup fragment_spreads key with
      | some others =>
        match fragment_spread_selection_value_merge_into (d, ss) others with
        | .error e => .error e
        | .ok (d', ss') =>
          match merge_apply_buckets rec fields fragment_spreads inline_fragments rest with
          | .error e => .error e
          | .ok rest' => .ok ((key, .fragmentSpread d' ss') :: rest')
      | none =>
        match merge_apply_buckets rec fields fragment_spreads inline_fragments rest with
        | .error e => .error e
        | .ok rest' => .ok ((key, .fragmentSpread d ss) :: rest')
    | .inlineFragment d ss =>
      match merge_bucket_lookup inline_fragments key with
      | some others =>
        match inline_fragment_selection_value_merge_into_aux rec (d, ss) others with
        | .error e => .error e
        | .ok (d', ss') =>
          match merge_apply_buckets rec fields fragment_spreads inline_fragments rest with
          | .error e => .error e
          | .ok rest' => .ok ((key, .inlineFragment d' ss') :: rest')
      | none =>
        match merge_apply_buckets rec fields fragment_spreads inline_fragments rest with
        | .error e => .error e
        | .ok rest' => .ok ((key, .inlineFragment d ss) :: rest')

/-- `NormalizedSelectionSet::merge_selections_into` (operation.rs:1421): bucket
the incoming selections per occupied key (inserting the new-keyed ones), then
merge each bucket into its entry.  `fuel` bounds the merge nesting depth. -/
def merge_selections_into :
    Nat → NormalizedSelectionMap → List NormalizedSelection →
    Except FederationError NormalizedSelectionMap
  | 0, _, _ => .error .outOfFuel
  | fuel + 1, self_selections, others =>
    if others.isEmpty then .ok self_selections
    else
      match merge_split_selections self_selections [] [] [] others with
      | .error e => .error e
      | .ok (m, fields, fragment_spreads, inline_fragments) =>
        merge_apply_buckets (fun a b => merge_selections_into fuel a b)
          fields fragment_spreads inline_fragments m

/-- `NormalizedSelectionSet::merge_into` (operation.rs:1387) at a given merge
nesting depth. -/
def NormalizedSelectionSet.merge_into (fuel : Nat) (self : NormalizedSelectionSet)
    (others : List NormalizedSelectionSet) :
    Except FederationError NormalizedSelectionSet :=
  selection_set_merge_into_aux (fun a b => merge_selections_into fuel a b) self others

/-! ## The sibling-`__typename` optimization (operation.rs:1562) -/

/-- The key bookkeeping of one entry of the loop of
`optimize_sibling_typenames` (operation.rs:1577-1584): remember the first
`__typename` field (when the type is not a registered interface-object type)
and otherwise the first sibling field. -/
def scan_step (is_io : Bool) (key : NormalizedSelectionKey)
    (data : NormalizedFieldData)
    (typename_field_key sibling_field_key : Option NormalizedSelectionKey) :
    Option NormalizedSelectionKey × Option NormalizedSelectionKey :=
  if data.name == "__typename" && !is_io && typename_field_key.isNone then
    (some key, sibling_field_key)
  else if sibling_field_key.isNone then (typename_field_key, some key)
  else (typename_field_key, sibling_field_key)


mutual
/-- `NormalizedSelectionSet::optimize_sibling_typenames` (operation.rs:1562).
Within the set: remember the first `__typename` field entry (unless the
enclosing type is a registered interface-object type) and the first other
field entry, recursing into every nested selection set on the way (a fragment
spread at this stage is an internal error); afterwards, if both were found,
remove the `__typename` entry and store its response name as the
sibling-typename attachment of the remembered sibling field (the source's
`unreachable!()` there is modelled as the `unreachable` error). -/
def NormalizedSelectionSet.optimize_sibling_typenames
    (interface_types_with_interface_objects : List String)
    (selection_set : NormalizedSelectionSet) :
    Except FederationError NormalizedSelectionSet :=
  match selection_set with
  | .mk self_schema self_type_position self_selections =>
    let is_io :=
      interface_types_with_interface_objects.contains self_type_position.type_name
    match optimize_sibling_typenames_loop interface_types_with_interface_objects
        is_io self_selections none none with
    | .error e => .error e
    | .ok (entries, typename_field_key, sibling_field_key) =>
      match typename_field_key, sibling_field_key with
      | some typename_key, some sibling_key =>
        match NormalizedSelectionMap.lookup entries typename_key with
        | some (.field typename_data _ _) =>
          let entries' := NormalizedSelectionMap.remove entries typename_key
          match NormalizedSelectionMap.lookup entries' sibling_key with
          | some (.field _ _ _) =>
            .ok (.mk self_schema self_type_position
              (NormalizedSelectionMap.set_field_sibling_typename entries'
                sibling_key (some typename_data.response_name)))
          | _ => .error .unreachable
        | _ => .error .unreachable
      | _, _ => .ok (.mk self_schema self_type_position entries)

/-- The entry loop of `optimize_sibling_typenames` (operation.rs:1574-1606):
threads the first-found `__typename` field key and first-found sibling field
key while recursing into nested selection sets. -/
def optimize_sibling_typenames_loop
    (interface_types_with_interface_objects : List String) (is_io : Bool) :
    List (NormalizedSelectionKey × NormalizedSelection) →
    Option NormalizedSelectionKey → Option NormalizedSelectionKey →
    Except FederationError
      (List (NormalizedSelectionKey × NormalizedSelection) ×
        Option NormalizedSelectionKey × Option NormalizedSelectionKey)
  | [], typename_field_key, sibling_field_key =>
    .ok ([], typename_field_key, sibling_field_key)
  | (key, .field data selectionSet siblingTypename) :: rest,
      typename_field_key, sibling_field_key =>
    let tk := (scan_step is_io key data typename_field_key sibling_field_key).1
    let sk := (scan_step is_io key data typename_field_key sibling_field_key).2
    match selectionSet with
    | some field_selection_set =>
      match NormalizedSelectionSet.optimize_sibling_typenames
          interface_types_with_interface_objects field_selection_set with
      | .error e => .error e
      | .ok field_selection_set' =>
        match optimize_sibling_typenames_loop interface_types_with_interface_objects
            is_io rest tk sk with
        | .error e => .error e
        | .ok (rest', tk', sk') =>
          .ok ((key, .field data (some field_selection_set') siblingTypename) :: rest',
            tk', sk')
    | none =>
      match optimize_sibling_typenames_loop interface_types_with_interface_objects
          is_io rest tk sk with
      | .error e => .error e
      | .ok (rest', tk', sk') =>
        .ok ((key, .field data none siblingTypename) :: rest', tk', sk')
  | (key, .inlineFragment data selectionSet) :: rest,
      typename_field_key, sibling_field_key =>
    match NormalizedSelectionSet.optimize_sibling_typenames
        interface_types_with_interface_objects selectionSet with
    | .error e => .error e
    | .ok selectionSet' =>
      match optimize_sibling_typenames_loop interface_types_with_interface_objects
          is_io rest typename_field_key sibling_field_key with
      | .error e => .error e
      | .ok (rest', tk', sk') =>
        .ok ((key, .inlineFragment data selectionSet') :: rest', tk', sk')
  | (_, .fragmentSpread _ _) :: _, _, _ =>
    -- at this point in time all fragment spreads should have been converted
    -- into inline fragments
    .error (.internal "Error while optimizing sibling typename information, selection set contains named fragment")
end

/-! ## Fixtures -/

/-- A small schema: object `T { a: String, b: U }`, object `U { c: String }`,
interface `I` with runtime types `T` and `U`, and scalar `String`. -/
def exSchema : Schema :=
  ⟨[⟨"T", .objectType, [⟨"a", "String"⟩, ⟨"b", "U"⟩], [], false⟩,
    ⟨"U", .objectType, [⟨"c", "String"⟩], [], false⟩,
    ⟨"I", .interfaceType, [⟨"a", "String"⟩], ["T", "U"], false⟩,
    ⟨"String", .scalarType, [], [], false⟩]⟩

/-- A field data on `exSchema`. -/
def exField (parent : CompositeTypeDefinitionPosition) (fname : String) :
    NormalizedFieldData :=
  { schema := exSchema, field_position := ⟨parent, fname⟩, alias_ := none,
    arguments := [], directives := [] }

def exFieldSel (parent : CompositeTypeDefinitionPosition) (fname : String) :
    NormalizedSelection :=
  .field (exField parent fname) none none

/-- The key-resolution graph for the witness of C2: node 0 is interface `T` in
subgraph `A`, node 1 is interface `T` in subgraph `B` (with runtime types
`X`, `Y`), and edge 0 is a key resolution from node 0 to node 1. -/
def exKeySchemaB : Schema :=
  ⟨[⟨"T", .interfaceType, [⟨"id", "ID"⟩], ["X", "Y"], false⟩,
    ⟨"X", .objectType, [⟨"id", "ID"⟩], [], false⟩,
    ⟨"Y", .objectType, [⟨"id", "ID"⟩], [], false⟩]⟩

def exKeyGraph : QueryGraph :=
  { current_source := "A",
    nodes :=
      [⟨.schemaType (.interfacePos "T"), "A", true, none, none⟩,
       ⟨.schemaType (.interfacePos "T"), "B", false, none, none⟩],
    edges := [(0, 1, ⟨.keyResolution, none⟩)],
    sources := [("A", exSchema), ("B", exKeySchemaB)] }

/-- A selection set whose single selection is the field `__typename` (a leaf
field: no sub-selection set). -/
def exLoneTypenameSet : NormalizedSelectionSet :=
  .mk exSchema (.objectPos "T")
    [((exField (.objectPos "T") "__typename").key,
      .field (exField (.objectPos "T") "__typename") none none)]

/-- Two distinct field datas (they differ in their arguments) that both carry
an `@defer` directive. -/
def exDeferField1 : NormalizedFieldData :=
  { schema := exSchema, field_position := ⟨.objectPos "T", "a"⟩, alias_ := none,
    arguments := [], directives := [⟨"defer", []⟩] }

def exDeferField2 : NormalizedFieldData :=
  { schema := exSchema, field_position := ⟨.objectPos "T", "a"⟩, alias_ := none,
    arguments := [⟨"x", "1"⟩], directives := [⟨"defer", []⟩] }

/-- A fragment-spread data for the C4 witness. -/
def exSpread (sid : Nat) (dirs : DirectiveList) : NormalizedFragmentSpreadData :=
  { schema := exSchema, fragment_name := "F", directives := dirs,
    selection_id := sid, spread_directives := dirs,
    type_condition_position := .objectPos "T",
    parent_type_position := .objectPos "T" }

/-- The pure key scan performed by the loop of `optimize_sibling_typenames`:
the first `__typename` field entry (unless the enclosing type is an
interface-object type) and the first other field entry. -/
def typename_sibling_scan (is_io : Bool) :
    List (NormalizedSelectionKey × NormalizedSelection) →
    Option NormalizedSelectionKey → Option NormalizedSelectionKey →
    (Option NormalizedSelectionKey × Option NormalizedSelectionKey)
  | [], typename_field_key, sibling_field_key => (typename_field_key, sibling_field_key)
  | (key, .field data _ _) :: rest, typename_field_key, sibling_field_key =>
    typename_sibling_scan is_io rest
      (scan_step is_io key data typename_field_key sibling_field_key).1
      (scan_step is_io key data typename_field_key sibling_field_key).2
  | (_, .inlineFragment _ _) :: rest, typename_field_key, sibling_field_key =>
    typename_sibling_scan is_io rest typename_field_key sibling_field_key
  | (_, .fragmentSpread _ _) :: rest, typename_field_key, sibling_field_key =>
    typename_sibling_scan is_io rest typename_field_key sibling_field_key

/-- Sameness of the element data of two selections: the optimization loop
rewrites sub-selection sets but never the element data or a field's existing
sibling-typename attachment. -/
def same_selection_element : NormalizedSelection → NormalizedSelection → Prop
  | .field d _ sib, .field d' _ sib' => d = d' ∧ sib = sib'
  | .fragmentSpread d ss, .fragmentSpread d' ss' => d = d' ∧ ss = ss'
  | .inlineFragment d _, .inlineFragment d' _ => d = d'
  | _, _ => False

/-- The direct dependencies of the fragment named `n` according to the
dependency table (empty when `n` is not in the table). -/
def deps_of (table : List (String × FragmentDependencies)) (n : String) :
    List String :=
  ((table.lookup n).map FragmentDependencies.depends_on).getD []

/-- `DepOrdered table resolved trace`: the names in `trace` are processed in an
order in which each name's direct dependencies (per `table`) have all been
resolved before it — they lie in `resolved` extended by the earlier part of
`trace`. -/
inductive DepOrdered (table : List (String × FragmentDependencies)) :
    List String → List String → Prop
  | nil (resolved : List String) : DepOrdered table resolved []
  | cons (resolved : List String) (n : String) (rest : List String)
      (hdeps : ∀ d ∈ deps_of table n, d ∈ resolved)
      (hrest : DepOrdered table (resolved ++ [n]) rest) :
      DepOrdered table resolved (n :: rest)

/-- The fragments of the C7 witness: fragment `B` selects the plain field `a`
of `T`; fragment `A` spreads `B`. -/
def c7FragB : NormalizedFragment :=
  { schema := exSchema, name := "B", type_condition_position := .objectPos "T",
    directives := [],
    selection_set := .mk exSchema (.objectPos "T")
      [((exField (.objectPos "T") "a").key, exFieldSel (.objectPos "T") "a")] }

def c7SpreadB : NormalizedFragmentSpreadData :=
  { schema := exSchema, fragment_name := "B", directives := [],
    selection_id := 7, spread_directives := [],
    type_condition_position := .objectPos "T",
    parent_type_position := .objectPos "T" }

def c7FragA : NormalizedFragment :=
  { schema := exSchema, name := "A", type_condition_position := .objectPos "T",
    directives := [],
    selection_set := .mk exSchema (.objectPos "T")
      [(c7SpreadB.key, .fragmentSpread c7SpreadB c7FragB.selection_set)] }

def c7Frags : NamedFragments := [("B", c7FragB), ("A", c7FragA)]

/-- The identity mapper used by the C7 witness. -/
def c7IdMapper : FragmentMapper := fun f _ => .ok (some f)

/-- The keys the first loop of `merge_selections_into` appends to the map: the
keys of the incoming selections not already occupied, each at its first
occurrence, in order. -/
def new_keys (occupied : List NormalizedSelectionKey) :
    List NormalizedSelection → List NormalizedSelectionKey
  | [] => []
  | s :: rest =>
    if s.key ∈ occupied then new_keys occupied rest
    else s.key :: new_keys (occupied ++ [s.key]) rest

/-- Extending a bucket's content (`None` standing for an absent bucket) by a
list of pushed payloads. -/
def bucket_extend {α : Type} (o : Option (List α)) (p : List α) : Option (List α) :=
  match o with
  | some l => some (l ++ p)
  | none => if p.isEmpty then none else some p

/-- The C5 witness inputs: the map holds the field `a` of `T`; the incoming
selections are the new field `b` followed by a duplicate of `a`. -/
def c5FieldA : NormalizedSelection := exFieldSel (.objectPos "T") "a"

def c5FieldB : NormalizedSelection := exFieldSel (.objectPos "T") "b"

def c5Map : NormalizedSelectionMap := [(c5FieldA.key, c5FieldA)]

def c5Others : List NormalizedSelection := [c5FieldB, c5FieldA]

def c5Result : NormalizedSelectionMap :=
  [(c5FieldA.key, c5FieldA), (c5FieldB.key, c5FieldB)]

/-- The C1 failing input: one fragment `F` on `T` whose body selects the two
fields `a` and `b` of `T` — its type condition exists in the destination
schema (`exSchema` itself) and its rebased body is a two-selection set, which
the worth-using test accepts. -/
def c1Frag : NormalizedFragment :=
  { schema := exSchema, name := "F", type_condition_position := .objectPos "T",
    directives := [],
    selection_set := .mk exSchema (.objectPos "T")
      [((exField (.objectPos "T") "a").key, exFieldSel (.objectPos "T") "a"),
       ((exField (.objectPos "T") "b").key, exFieldSel (.objectPos "T") "b")] }

def c1Frags : NamedFragments := [("F", c1Frag)]

/-! # Theorems

The remainder of the file settles the specification claims against the
embedding above.  The concrete fixtures used by witnesses and the
specification-side definitions were defined above, with the embedding. -/

@[simp] theorem NormalizedSelectionSet.schema_mk (s tp sels) :
    NormalizedSelectionSet.schema (.mk s tp sels) = s := rfl

@[simp] theorem NormalizedSelectionSet.type_position_mk (s tp sels) :
    NormalizedSelectionSet.type_position (.mk s tp sels) = tp := rfl

@[simp] theorem NormalizedSelectionSet.selections_mk (s tp sels) :
    NormalizedSelectionSet.selections (.mk s tp sels) = sels := rfl

/-! ## C2 — key-resolution edges reset the possible runtime types -/

/-- C2: for an edge whose transition is a key resolution (and whose tail is a
schema-type node of composite type with a registered source schema),
`advance_possible_runtime_types` returns exactly the tail node's source
schema's possible runtime types of the tail type, for every input set of
possible runtime types — the input set is ignored entirely. -/
theorem advance_possible_runtime_types_key_resolution
    (g : QueryGraph) (e : Nat) (edge_w : QueryGraphEdge) (head tail : Nat)
    (tail_w : QueryGraphNode) (tail_type_pos : OutputTypeDefinitionPosition)
    (tail_composite : CompositeTypeDefinitionPosition) (tail_schema : Schema)
    (hew : g.edge_weight e = .ok edge_w)
    (htr : edge_w.transition = .keyResolution)
    (hend : g.edge_endpoints e = .ok (head, tail))
    (hnw : g.node_weight tail = .ok tail_w)
    (hty : tail_w.type_ = .schemaType tail_type_pos)
    (hcomp : tail_type_pos.toCompositePosition = some tail_composite)
    (hsch : g.schema_by_source tail_w.source = .ok tail_schema)
    (possible_runtime_types : List String) :
    g.advance_possible_runtime_types possible_runtime_types (some e) =
      tail_schema.possible_runtime_types tail_composite := by
  unfold QueryGraph.advance_possible_runtime_types
  simp only [bind, Except.bind, hew, hend, hnw, hty, htr, hcomp, hsch]

/-- Witness for C2: on the concrete graph, advancing the (junk) input set
`["Z"]` over the key-resolution edge yields exactly subgraph `B`'s runtime
types `["X", "Y"]` of `T`. -/
theorem advance_possible_runtime_types_key_resolution_witness :
    exKeyGraph.edge_weight 0 = .ok ⟨.keyResolution, none⟩ ∧
    exKeyGraph.advance_possible_runtime_types ["Z"] (some 0) =
      exKeySchemaB.possible_runtime_types (.interfacePos "T") ∧
    exKeyGraph.advance_possible_runtime_types ["Z"] (some 0) = .ok ["X", "Y"] :=
  ⟨rfl,
   advance_possible_runtime_types_key_resolution exKeyGraph 0
     ⟨.keyResolution, none⟩ 0 1 ⟨.schemaType (.interfacePos "T"), "B", false, none, none⟩
     (.interfacePos "T") (.interfacePos "T") exKeySchemaB rfl rfl rfl rfl rfl rfl rfl ["Z"],
   rfl⟩

/-! ## C3 — the worth-using test and a lone `__typename` -/

/-- Counterexample to C3 as stated: the worth-using test *rejects* a selection
set whose single selection is the leaf field `__typename` (the claim says it
accepts it).  The second conjunct pins down the shape of the input: a single
field selection named `__typename` with no sub-selection set. -/
theorem is_selection_set_worth_using_rejects_lone_typename :
    NamedFragments.is_selection_set_worth_using exLoneTypenameSet = false ∧
    exLoneTypenameSet.selections =
      [((exField (.objectPos "T") "__typename").key,
        .field (exField (.objectPos "T") "__typename") none none)] ∧
    (exField (.objectPos "T") "__typename").name = "__typename" :=
  ⟨rfl, rfl, rfl⟩

/-- C3 (amended): `is_selection_set_worth_using` accepts a selection set iff it
is non-empty and, when it consists of a single field selection, that field has
a sub-selection set (i.e. is not a leaf — a lone leaf field, including a lone
`__typename`, is rejected; a lone non-field selection and any set of two or
more selections are accepted). -/
theorem is_selection_set_worth_using_iff (selection_set : NormalizedSelectionSet) :
    NamedFragments.is_selection_set_worth_using selection_set = true ↔
      (selection_set.selections ≠ [] ∧
        ∀ k d sub sib, selection_set.selections = [(k, .field d sub sib)] →
          sub.isSome = true) := by
  obtain ⟨sch, tp, sels⟩ := selection_set
  unfold NamedFragments.is_selection_set_worth_using
  match sels with
  | [] => simp
  | [(k₀, s₀)] =>
    cases s₀ with
    | field d₀ sub₀ sib₀ =>
      simp only [NormalizedSelectionSet.selections_mk]
      constructor
      · intro h
        refine ⟨by simp, ?_⟩
        intro k d sub sib heq
        simp only [List.cons.injEq, Prod.mk.injEq] at heq
        obtain ⟨⟨-, hval⟩, -⟩ := heq
        cases hval
        exact h
      · rintro ⟨-, h⟩
        exact h k₀ d₀ sub₀ sib₀ rfl
    | fragmentSpread d₀ ss₀ => simp
    | inlineFragment d₀ ss₀ => simp
  | (k₀, s₀) :: (k₁, s₁) :: rest => simp

/-! ## C4 — selection-key equality -/

/-- Counterexample to C4 as stated: two distinct sibling field selections that
both carry an `@defer` directive are still assigned equal selection keys — the
field key is computed from the response name and the canonicalized directive
list only, with no `@defer` exclusion, so the claim's "neither selection
carries a `@defer` directive" requisite fails as a necessary condition. -/
theorem field_keys_equal_despite_defer :
    exDeferField1.key = exDeferField2.key ∧
    exDeferField1 ≠ exDeferField2 ∧
    is_deferred_selection exDeferField1.directives = true ∧
    is_deferred_selection exDeferField2.directives = true := by
  refine ⟨rfl, ?_, rfl, rfl⟩
  decide

/-- C4 (amended): selection-key equality is characterized as follows.  Field
keys are equal iff the response names and the canonicalized directive lists
(each directive's arguments sorted by name, directive order significant) are
equal — regardless of `@defer`.  For fragment spreads and inline fragments not
carrying `@defer`, keys are equal iff the fragment name (resp. the type
condition) and the canonicalized directive lists are equal; a spread or inline
fragment carrying `@defer` gets a key derived from its unique selection id, so
it never shares a key with a selection with a different selection id. -/
theorem selection_key_equality_characterization :
    (∀ f1 f2 : NormalizedFieldData,
      f1.key = f2.key ↔
        (f1.response_name = f2.response_name ∧
          directives_with_sorted_arguments f1.directives =
            directives_with_sorted_arguments f2.directives)) ∧
    (∀ s1 s2 : NormalizedFragmentSpreadData,
      is_deferred_selection s1.directives = false →
      is_deferred_selection s2.directives = false →
      (s1.key = s2.key ↔
        (s1.fragment_name = s2.fragment_name ∧
          directives_with_sorted_arguments s1.directives =
            directives_with_sorted_arguments s2.directives))) ∧
    (∀ s1 s2 : NormalizedFragmentSpreadData,
      is_deferred_selection s1.directives = true →
      s1.selection_id ≠ s2.selection_id → s1.key ≠ s2.key) ∧
    (∀ i1 i2 : NormalizedInlineFragmentData,
      is_deferred_selection i1.directives = false →
      is_deferred_selection i2.directives = false →
      (i1.key = i2.key ↔
        (i1.type_condition_position.map (fun pos => pos.type_name) =
            i2.type_condition_position.map (fun pos => pos.type_name) ∧
          directives_with_sorted_arguments i1.directives =
            directives_with_sorted_arguments i2.directives))) ∧
    (∀ i1 i2 : NormalizedInlineFragmentData,
      is_deferred_selection i1.directives = true →
      i1.selection_id ≠ i2.selection_id → i1.key ≠ i2.key) := by
  refine ⟨?_, ?_, ?_, ?_, ?_⟩
  · intro f1 f2
    simp [NormalizedFieldData.key, NormalizedSelectionKey.field.injEq]
  · intro s1 s2 h1 h2
    simp [NormalizedFragmentSpreadData.key, h1, h2,
      NormalizedSelectionKey.fragmentSpread.injEq]
  · intro s1 s2 h1 hid
    by_cases h2 : is_deferred_selection s2.directives
    · simp [NormalizedFragmentSpreadData.key, h1, h2,
        NormalizedSelectionKey.deferredFragmentSpread.injEq, hid]
    · simp [NormalizedFragmentSpreadData.key, h1, h2]
  · intro i1 i2 h1 h2
    simp [NormalizedInlineFragmentData.key, h1, h2,
      NormalizedSelectionKey.inlineFragment.injEq]
  · intro i1 i2 h1 hid
    by_cases h2 : is_deferred_selection i2.directives
    · simp [NormalizedInlineFragmentData.key, h1, h2,
        NormalizedSelectionKey.deferredInlineFragment.injEq, hid]
    · simp [NormalizedInlineFragmentData.key, h1, h2]

/-- Witness for the amended C4: two spreads of the same fragment whose
directive lists differ only in argument order (`@skip(if: .., label: ..)` vs
`@skip(label: .., if: ..)`) share a key; the same spreads with `@defer` and
distinct selection ids do not. -/
theorem selection_key_equality_characterization_witness :
    is_deferred_selection (exSpread 1 [⟨"skip", [⟨"if", "v"⟩, ⟨"label", "x"⟩]⟩]).directives
        = false ∧
    is_deferred_selection (exSpread 2 [⟨"skip", [⟨"label", "x"⟩, ⟨"if", "v"⟩]⟩]).directives
        = false ∧
    ((exSpread 1 [⟨"skip", [⟨"if", "v"⟩, ⟨"label", "x"⟩]⟩]).key =
        (exSpread 2 [⟨"skip", [⟨"label", "x"⟩, ⟨"if", "v"⟩]⟩]).key ↔
      ((exSpread 1 [⟨"skip", [⟨"if", "v"⟩, ⟨"label", "x"⟩]⟩]).fragment_name =
          (exSpread 2 [⟨"skip", [⟨"label", "x"⟩, ⟨"if", "v"⟩]⟩]).fragment_name ∧
        directives_with_sorted_arguments
            (exSpread 1 [⟨"skip", [⟨"if", "v"⟩, ⟨"label", "x"⟩]⟩]).directives =
          directives_with_sorted_arguments
            (exSpread 2 [⟨"skip", [⟨"label", "x"⟩, ⟨"if", "v"⟩]⟩]).directives)) ∧
    (exSpread 1 [⟨"skip", [⟨"if", "v"⟩, ⟨"label", "x"⟩]⟩]).key =
      (exSpread 2 [⟨"skip", [⟨"label", "x"⟩, ⟨"if", "v"⟩]⟩]).key ∧
    is_deferred_selection (exSpread 1 [⟨"defer", []⟩]).directives = true ∧
    (exSpread 1 [⟨"defer", []⟩]).key ≠ (exSpread 2 [⟨"defer", []⟩]).key :=
  ⟨rfl, rfl,
   selection_key_equality_characterization.2.1
     (exSpread 1 [⟨"skip", [⟨"if", "v"⟩, ⟨"label", "x"⟩]⟩])
     (exSpread 2 [⟨"skip", [⟨"label", "x"⟩, ⟨"if", "v"⟩]⟩]) rfl rfl,
   by decide,
   rfl,
   selection_key_equality_characterization.2.2.1
     (exSpread 1 [⟨"defer", []⟩]) (exSpread 2 [⟨"defer", []⟩]) rfl (by decide)⟩

/-! ## C8 — field rebasing -/

/-- Counterexample to C8 as stated: a field whose name does not exist on the
target parent type is an *error under both policies* — the `?` on
`parent_type.field(name)` propagates the lookup failure before the policy is
consulted — whereas the claim says incompatible rebases fail "or drop per the
selected policy" (i.e. become `None` under `IgnoreError`).  Here the field `a`
of `T` is rebased onto `U`, which has no field `a`, under the ignore policy. -/
theorem field_rebase_on_missing_field_errors_under_ignore :
    (exField (.objectPos "T") "a").rebase_on (.objectPos "U") exSchema .ignoreError =
      .error (.internal "field not found on type") ∧
    (exField (.objectPos "T") "a").field_position.parent ≠ .objectPos "U" ∧
    (exField (.objectPos "T") "a").name ≠ "__typename" ∧
    ((exSchema.get_type "U").map (fun td => td.fields.any (fun f => f.name == "a")) =
      some false) := by
  refine ⟨rfl, by decide, by decide, rfl⟩

/-- C8 (amended): `NormalizedField::rebase_on`, characterized case by case.
If the target parent equals the field's current parent, the field is returned
unchanged under both policies.  Rebasing `__typename` onto a parent with an
interface-object runtime type is an internal error under `ThrowError` and a
drop (`None`) under `IgnoreError`; onto any other parent (with computable
runtime types) it succeeds with the parent's introspection `__typename`
position.  Otherwise the rebase succeeds — with the field looked up by name on
the target parent — if and only if a field of the same name exists on the
target parent (in the destination schema) and either the parent types share a
name or the old parent is an interface or union; when the name condition fails
the outcome follows the policy (error/drop), but a missing field on the target
parent is an error under *both* policies. -/
theorem field_rebase_on_characterization (d : NormalizedFieldData)
    (parent_type : CompositeTypeDefinitionPosition) (schema : Schema) :
    (d.field_position.parent = parent_type →
      ∀ eh, d.rebase_on parent_type schema eh = .ok (some d)) ∧
    (∀ rts, d.field_position.parent ≠ parent_type → d.name = "__typename" →
      schema.possible_runtime_types parent_type = .ok rts →
      rts.any (fun t => is_interface_object schema t) = true →
      (∃ msg, d.rebase_on parent_type schema .throwError = .error (.internal msg)) ∧
      d.rebase_on parent_type schema .ignoreError = .ok none) ∧
    (∀ rts, d.field_position.parent ≠ parent_type → d.name = "__typename" →
      schema.possible_runtime_types parent_type = .ok rts →
      rts.any (fun t => is_interface_object schema t) = false →
      ∀ eh, d.rebase_on parent_type schema eh =
        .ok (some { d with
          field_position := parent_type.introspection_typename_field })) ∧
    (d.field_position.parent ≠ parent_type → d.name ≠ "__typename" →
      ∀ eh, ((∃ r, d.rebase_on parent_type schema eh = .ok (some r)) ↔
        ((∃ fp, CompositeTypeDefinitionPosition.field schema parent_type d.name = .ok fp) ∧
          d.can_rebase_on parent_type = true))) ∧
    (d.field_position.parent ≠ parent_type → d.name ≠ "__typename" →
      (∃ fp, CompositeTypeDefinitionPosition.field schema parent_type d.name = .ok fp) →
      d.can_rebase_on parent_type = false →
      (∃ msg, d.rebase_on parent_type schema .throwError = .error (.internal msg)) ∧
      d.rebase_on parent_type schema .ignoreError = .ok none) ∧
    (d.field_position.parent ≠ parent_type → d.name ≠ "__typename" →
      (∀ fp, CompositeTypeDefinitionPosition.field schema parent_type d.name ≠ .ok fp) →
      ∀ eh, ∃ err, d.rebase_on parent_type schema eh = .error err) := by
  refine ⟨?_, ?_, ?_, ?_, ?_, ?_⟩
  · intro hpar eh
    unfold NormalizedFieldData.rebase_on
    simp [hpar]
  · intro rts hne hname hrts hio
    unfold NormalizedFieldData.rebase_on
    simp only [hne, if_false, hname, if_true, hrts, hio]
    exact ⟨⟨_, rfl⟩, by trivial⟩
  · intro rts hne hname hrts hio eh
    unfold NormalizedFieldData.rebase_on
    simp only [hne, if_false, hname, if_true, hrts, hio]
    rfl
  · intro hne hname eh
    unfold NormalizedFieldData.rebase_on
    simp only [hne, if_false, hname, if_true]
    cases hf : CompositeTypeDefinitionPosition.field schema parent_type d.name with
    | error e =>
      constructor
      · rintro ⟨r, hr⟩
        exact absurd hr (by simp)
      · rintro ⟨⟨fp, hfp⟩, -⟩
        exact absurd hfp (by simp)
    | ok parent_field =>
      by_cases hc : d.can_rebase_on parent_type
      · simp only [hc, if_true]
        exact ⟨fun _ => ⟨⟨parent_field, rfl⟩, by trivial⟩, fun _ => ⟨_, rfl⟩⟩
      · simp only [hc, Bool.false_eq_true, if_false]
        constructor
        · rintro ⟨r, hr⟩
          cases eh
          · exact absurd hr (by simp)
          · exact absurd hr (by simp)
        · rintro ⟨-, hc'⟩
          exact absurd hc' (by simp [hc])
  · rintro hne hname ⟨fp, hfp⟩ hc
    unfold NormalizedFieldData.rebase_on
    simp only [hne, if_false, hname, if_true, hfp, hc, Bool.false_eq_true]
    exact ⟨⟨_, rfl⟩, by trivial⟩
  · intro hne hname hfail eh
    unfold NormalizedFieldData.rebase_on
    simp only [hne, if_false, hname, if_true]
    cases hf : CompositeTypeDefinitionPosition.field schema parent_type d.name with
    | error e => exact ⟨e, rfl⟩
    | ok parent_field => exact absurd hf (hfail parent_field)

/-- Witness for the amended C8: the concrete cases on `exSchema` — a no-op
rebase, a successful interface-to-implementer rebase of `a` from `I` onto `T`,
the policy-split drop for a name-condition failure (`U.c` onto `T`, which has
a field `c`? it does not — use a schema where it exists), and the
missing-field error. -/
theorem field_rebase_on_characterization_witness :
    ((exField (.objectPos "T") "a").field_position.parent = .objectPos "T") ∧
    ((exField (.objectPos "T") "a").rebase_on (.objectPos "T") exSchema .throwError =
      .ok (some (exField (.objectPos "T") "a"))) ∧
    ((exField (.interfacePos "I") "a").field_position.parent ≠ .objectPos "T") ∧
    ((exField (.interfacePos "I") "a").name ≠ "__typename") ∧
    ((∃ r, (exField (.interfacePos "I") "a").rebase_on (.objectPos "T") exSchema
        .ignoreError = .ok (some r)) ↔
      ((∃ fp, CompositeTypeDefinitionPosition.field exSchema (.objectPos "T") "a" = .ok fp) ∧
        (exField (.interfacePos "I") "a").can_rebase_on (.objectPos "T") = true)) ∧
    ((exField (.interfacePos "I") "a").rebase_on (.objectPos "T") exSchema .ignoreError =
      .ok (some { exField (.interfacePos "I") "a" with
        field_position := ⟨.objectPos "T", "a"⟩ })) := by
  refine ⟨by decide, rfl, by decide, by decide, ?_, rfl⟩
  have h := (field_rebase_on_characterization (exField (.interfacePos "I") "a")
    (.objectPos "T") exSchema).2.2.2.1 (by decide) (by decide) RebaseErrorHandlingOption.ignoreError
  simpa using h

/-! ## C10 — rebasing a selection set -/

/-- Folding `NormalizedSelectionMap.insert` over values with pairwise-distinct
keys (all fresh for the accumulated map) appends the values keyed by their own
keys, in order. -/
theorem foldl_insert_eq_append (vs : List NormalizedSelection) :
    ∀ m : NormalizedSelectionMap,
    (m.map Prod.fst ++ vs.map NormalizedSelection.key).Nodup →
    vs.foldl NormalizedSelectionMap.insert m =
      m ++ vs.map (fun s => (s.key, s)) := by
  induction vs with
  | nil => intro m _; simp
  | cons v rest ih =>
    intro m h
    have hnotin : v.key ∉ m.map Prod.fst := by
      rw [List.nodup_append] at h
      intro hmem
      exact h.2.2 hmem (by simp)
    have hins : NormalizedSelectionMap.insert m v = m ++ [(v.key, v)] := by
      unfold NormalizedSelectionMap.insert
      have : m.any (fun e => e.1 == v.key) = false := by
        rw [List.any_eq_false]
        intro e he
        simp only [beq_iff_eq]
        intro hk
        exact hnotin (List.mem_map.mpr ⟨e, he, hk⟩)
      simp [this]
    have h' : ((m ++ [(v.key, v)]).map Prod.fst ++
        (rest.map NormalizedSelection.key)).Nodup := by
      simp only [List.map_append, List.map_cons, List.map_nil] at h ⊢
      simpa [List.append_assoc] using h
    calc (v :: rest).foldl NormalizedSelectionMap.insert m
        = rest.foldl NormalizedSelectionMap.insert (NormalizedSelectionMap.insert m v) := by
          simp [List.foldl_cons]
      _ = rest.foldl NormalizedSelectionMap.insert (m ++ [(v.key, v)]) := by rw [hins]
      _ = (m ++ [(v.key, v)]) ++ rest.map (fun s => (s.key, s)) := ih _ h'
      _ = m ++ (v :: rest).map (fun s => (s.key, s)) := by simp

/-- C10: a successful `NormalizedSelectionSet::rebase_on` keeps the original
set's schema and type position (not the target parent type), and — when the
rebased members' keys are pairwise distinct — its selections are exactly the
individually rebased member selections, in order, each keyed by its own key;
members whose rebase produced no result are absent. -/
theorem selection_set_rebase_on_characterization
    (S : NormalizedSelectionSet) (P : CompositeTypeDefinitionPosition)
    (fragments : NamedFragments) (schema : Schema)
    (eh : RebaseErrorHandlingOption) (R : NormalizedSelectionSet)
    (rs : List (Option NormalizedSelection))
    (hrs : selection_list_rebase_on S.selections P fragments schema eh = .ok rs)
    (hok : S.rebase_on P fragments schema eh = .ok R)
    (hnodup : ((rs.filterMap id).map NormalizedSelection.key).Nodup) :
    R.schema = S.schema ∧ R.type_position = S.type_position ∧
    R.selections = (rs.filterMap id).map (fun s => (s.key, s)) ∧
    R.selections.map Prod.snd = rs.filterMap id := by
  obtain ⟨sch, tp, sels⟩ := S
  unfold NormalizedSelectionSet.rebase_on at hok
  simp only [NormalizedSelectionSet.selections_mk] at hrs
  rw [hrs] at hok
  injection hok with hok
  subst hok
  have hfold := foldl_insert_eq_append (rs.filterMap id) NormalizedSelectionMap.new
    (by simpa [NormalizedSelectionMap.new] using hnodup)
  refine ⟨rfl, rfl, ?_, ?_⟩
  · simpa [NormalizedSelectionMap.new] using hfold
  · rw [show NormalizedSelectionSet.selections
        (.mk sch tp ((rs.filterMap id).foldl NormalizedSelectionMap.insert
          NormalizedSelectionMap.new)) =
        (rs.filterMap id).foldl NormalizedSelectionMap.insert
          NormalizedSelectionMap.new from rfl, hfold]
    simp only [NormalizedSelectionMap.new, List.nil_append, List.map_map]
    exact List.map_id _ ▸ (by rfl : List.map (Prod.snd ∘ fun s => (s.key, s))
      (rs.filterMap id) = List.map id (rs.filterMap id))

/-- Witness for C10: rebasing `{ a b }` (fields of `T`) onto `T` itself
succeeds member-wise; the result keeps the schema and type position and lists
exactly the two rebased members. -/
theorem selection_set_rebase_on_characterization_witness :
    (selection_list_rebase_on
        (NormalizedSelectionSet.mk exSchema (.objectPos "T")
          [((exField (.objectPos "T") "a").key, exFieldSel (.objectPos "T") "a"),
           ((exField (.objectPos "T") "b").key, exFieldSel (.objectPos "T") "b")]).selections
        (.objectPos "T") [] exSchema .ignoreError =
      .ok [some (exFieldSel (.objectPos "T") "a"), some (exFieldSel (.objectPos "T") "b")]) ∧
    (NormalizedSelectionSet.rebase_on
        (NormalizedSelectionSet.mk exSchema (.objectPos "T")
          [((exField (.objectPos "T") "a").key, exFieldSel (.objectPos "T") "a"),
           ((exField (.objectPos "T") "b").key, exFieldSel (.objectPos "T") "b")])
        (.objectPos "T") [] exSchema .ignoreError =
      .ok (NormalizedSelectionSet.mk exSchema (.objectPos "T")
        [((exField (.objectPos "T") "a").key, exFieldSel (.objectPos "T") "a"),
         ((exField (.objectPos "T") "b").key, exFieldSel (.objectPos "T") "b")])) ∧
    (NormalizedSelectionSet.mk exSchema (.objectPos "T")
        [((exField (.objectPos "T") "a").key, exFieldSel (.objectPos "T") "a"),
         ((exField (.objectPos "T") "b").key, exFieldSel (.objectPos "T") "b")]).schema
      = exSchema ∧
    ((([some (exFieldSel (.objectPos "T") "a"),
        some (exFieldSel (.objectPos "T") "b")].filterMap
          (id : Option NormalizedSelection → Option NormalizedSelection)).map
        NormalizedSelection.key).Nodup) := by
  refine ⟨rfl, rfl, ?_, by decide⟩
  exact (selection_set_rebase_on_characterization
    (NormalizedSelectionSet.mk exSchema (.objectPos "T")
      [((exField (.objectPos "T") "a").key, exFieldSel (.objectPos "T") "a"),
       ((exField (.objectPos "T") "b").key, exFieldSel (.objectPos "T") "b")])
    (.objectPos "T") [] exSchema .ignoreError
    (NormalizedSelectionSet.mk exSchema (.objectPos "T")
      [((exField (.objectPos "T") "a").key, exFieldSel (.objectPos "T") "a"),
       ((exField (.objectPos "T") "b").key, exFieldSel (.objectPos "T") "b")])
    [some (exFieldSel (.objectPos "T") "a"), some (exFieldSel (.objectPos "T") "b")]
    rfl rfl (by decide)).1

/-! ## C6 — the sibling-`__typename` optimization -/

/-- A successful pass of the optimization loop preserves the keys (and their
order) and the element data of every entry, and computes exactly the pure key
scan. -/
theorem optimize_sibling_typenames_loop_spec (reg : List String) (is_io : Bool)
    (sels : List (NormalizedSelectionKey × NormalizedSelection)) :
    ∀ (tk0 sk0 : Option NormalizedSelectionKey) entries tk' sk',
    optimize_sibling_typenames_loop reg is_io sels tk0 sk0 = .ok (entries, tk', sk') →
    entries.map Prod.fst = sels.map Prod.fst ∧
    (tk', sk') = typename_sibling_scan is_io sels tk0 sk0 ∧
    List.Forall₂ (fun e e' => e.1 = e'.1 ∧ same_selection_element e.2 e'.2)
      sels entries := by
  induction sels with
  | nil =>
    intro tk0 sk0 entries tk' sk' h
    unfold optimize_sibling_typenames_loop at h
    injection h with h
    injection h with h1 h2
    injection h2 with h2 h3
    subst h1; subst h2; subst h3
    exact ⟨rfl, rfl, List.Forall₂.nil⟩
  | cons e rest ih =>
    intro tk0 sk0 entries tk' sk' h
    obtain ⟨k, s⟩ := e
    cases s with
    | field d subsel sib =>
      unfold optimize_sibling_typenames_loop at h
      unfold typename_sibling_scan
      cases subsel with
      | some fss =>
        dsimp only at h
        cases hopt : NormalizedSelectionSet.optimize_sibling_typenames reg fss with
        | error e => rw [hopt] at h; exact absurd h (by simp)
        | ok fss' =>
          rw [hopt] at h
          cases hrec : optimize_sibling_typenames_loop reg is_io rest
              (scan_step is_io k d tk0 sk0).1 (scan_step is_io k d tk0 sk0).2 with
          | error e => rw [hrec] at h; exact absurd h (by simp)
          | ok out =>
            obtain ⟨rest', tkr, skr⟩ := out
            rw [hrec] at h
            injection h with h
            injection h with h1 h2
            injection h2 with h2 h3
            subst h1; subst h2; subst h3
            obtain ⟨hkeys, hscan, hfa⟩ := ih _ _ _ _ _ hrec
            refine ⟨by simpa using hkeys, by simpa using hscan, ?_⟩
            exact List.Forall₂.cons ⟨rfl, ⟨rfl, rfl⟩⟩ hfa
      | none =>
        dsimp only at h
        cases hrec : optimize_sibling_typenames_loop reg is_io rest
            (scan_step is_io k d tk0 sk0).1 (scan_step is_io k d tk0 sk0).2 with
        | error e => rw [hrec] at h; exact absurd h (by simp)
        | ok out =>
          obtain ⟨rest', tkr, skr⟩ := out
          rw [hrec] at h
          injection h with h
          injection h with h1 h2
          injection h2 with h2 h3
          subst h1; subst h2; subst h3
          obtain ⟨hkeys, hscan, hfa⟩ := ih _ _ _ _ _ hrec
          refine ⟨by simpa using hkeys, by simpa using hscan, ?_⟩
          exact List.Forall₂.cons ⟨rfl, ⟨rfl, rfl⟩⟩ hfa
    | fragmentSpread d ss =>
      unfold optimize_sibling_typenames_loop at h
      exact absurd h (by simp)
    | inlineFragment d ss =>
      unfold optimize_sibling_typenames_loop at h
      unfold typename_sibling_scan
      cases hopt : NormalizedSelectionSet.optimize_sibling_typenames reg ss with
      | error e => rw [hopt] at h; exact absurd h (by simp)
      | ok ss' =>
        rw [hopt] at h
        cases hrec : optimize_sibling_typenames_loop reg is_io rest tk0 sk0 with
        | error e => rw [hrec] at h; exact absurd h (by simp)
        | ok out =>
          obtain ⟨rest', tkr, skr⟩ := out
          rw [hrec] at h
          injection h with h
          injection h with h1 h2
          injection h2 with h2 h3
          subst h1; subst h2; subst h3
          obtain ⟨hkeys, hscan, hfa⟩ := ih _ _ _ _ _ hrec
          refine ⟨by simpa using hkeys, hscan, ?_⟩
          exact List.Forall₂.cons ⟨rfl, rfl⟩ hfa

/-- With the enclosing type registered as an interface-object type, the scan
never selects a `__typename` key. -/
theorem typename_sibling_scan_io (sels : List (NormalizedSelectionKey × NormalizedSelection)) :
    ∀ sk0, (typename_sibling_scan true sels none sk0).1 = none := by
  induction sels with
  | nil => intro sk0; rfl
  | cons e rest ih =>
    intro sk0
    obtain ⟨k, s⟩ := e
    cases s with
    | field d subsel sib =>
      have hstep : scan_step true k d none sk0 =
          if sk0.isNone then ((none : Option NormalizedSelectionKey), some k)
          else (none, sk0) := by
        unfold scan_step
        simp
      show (typename_sibling_scan true rest (scan_step true k d none sk0).1
        (scan_step true k d none sk0).2).1 = none
      rw [hstep]
      by_cases hsk : sk0.isNone
      · rw [if_pos hsk]
        exact ih (some k)
      · rw [if_neg hsk]
        exact ih sk0
    | fragmentSpread d ss => exact ih sk0
    | inlineFragment d ss => exact ih sk0

/-- Keys of `set_field_sibling_typename`. -/
theorem keys_set_field_sibling_typename (m : NormalizedSelectionMap)
    (k : NormalizedSelectionKey) (v : Option String) :
    (m.set_field_sibling_typename k v).map Prod.fst = m.map Prod.fst := by
  unfold NormalizedSelectionMap.set_field_sibling_typename
  induction m with
  | nil => rfl
  | cons e rest ih =>
    simp only [List.map_cons]
    rw [ih]
    congr 1
    by_cases hk : (e.1 == k) = true
    · rw [if_pos hk]
      cases e.2 <;> rfl
    · rw [if_neg hk]

/-- One-step unfolding of `set_field_sibling_typename`. -/
theorem set_field_sibling_typename_cons (e : NormalizedSelectionKey × NormalizedSelection)
    (rest : NormalizedSelectionMap) (k : NormalizedSelectionKey) (v : Option String) :
    NormalizedSelectionMap.set_field_sibling_typename (e :: rest) k v =
      (if e.1 == k then
        match e.2 with
        | .field d ss _ => (e.1, NormalizedSelection.field d ss v)
        | v0 => (e.1, v0)
       else e) :: NormalizedSelectionMap.set_field_sibling_typename rest k v := rfl

/-- Keys of `remove`. -/
theorem keys_remove (m : NormalizedSelectionMap) (k : NormalizedSelectionKey) :
    (m.remove k).map Prod.fst = (m.map Prod.fst).filter (fun key => key ≠ k) := by
  unfold NormalizedSelectionMap.remove
  induction m with
  | nil => rfl
  | cons e rest ih =>
    by_cases hk : e.1 = k
    · rw [List.filter_cons_of_neg (by simp [hk]), List.map_cons,
        List.filter_cons_of_neg (by simp [hk])]
      exact ih
    · rw [List.filter_cons_of_pos (by simp [hk]), List.map_cons, List.map_cons,
        List.filter_cons_of_pos (by simp [hk]), ih]

/-- `lookup` after `set_field_sibling_typename` at the mutated key. -/
theorem lookup_set_field_sibling_typename (m : NormalizedSelectionMap)
    (k : NormalizedSelectionKey) (v : Option String) :
    ∀ (d : NormalizedFieldData) (ss : Option NormalizedSelectionSet)
      (sb : Option String),
    m.lookup k = some (.field d ss sb) →
    (m.set_field_sibling_typename k v).lookup k = some (.field d ss v) := by
  induction m with
  | nil =>
    intro d ss sb h
    simp [NormalizedSelectionMap.lookup] at h
  | cons e rest ih =>
    intro d ss sb h
    unfold NormalizedSelectionMap.lookup at h ⊢
    rw [set_field_sibling_typename_cons]
    by_cases hk : (e.1 == k) = true
    · simp only [List.find?_cons, hk] at h
      simp only [Option.map_some'] at h
      injection h with h
      rw [if_pos hk, h]
      simp [List.find?_cons, hk]
    · have hk' : (e.1 == k) = false := by simpa using hk
      simp only [List.find?_cons, hk'] at h
      rw [if_neg hk]
      simp only [List.find?_cons, hk']
      exact ih d ss sb h

/-- `lookup` after `remove` at a different key. -/
theorem lookup_remove_ne (m : NormalizedSelectionMap)
    (k k' : NormalizedSelectionKey) (hne : k' ≠ k) :
    (m.remove k).lookup k' = m.lookup k' := by
  unfold NormalizedSelectionMap.lookup NormalizedSelectionMap.remove
  induction m with
  | nil => rfl
  | cons e rest ih =>
    by_cases hek : e.1 = k
    · have h1 : decide (e.1 ≠ k) = false := by simp [hek]
      have h2 : (e.1 == k') = false := by
        simp only [beq_eq_false_iff_ne, ne_eq, hek]
        exact fun hh => hne (hh ▸ rfl)
      simp only [List.filter_cons, h1, Bool.false_eq_true, if_false]
      simp only [List.find?_cons, h2]
      exact ih
    · have h1 : decide (e.1 ≠ k) = true := by simp [hek]
      simp only [List.filter_cons, h1, if_true]
      by_cases hek' : (e.1 == k') = true
      · simp [List.find?_cons, hek']
      · have hek'' : (e.1 == k') = false := by simpa using hek'
        simp only [List.find?_cons, hek'']
        exact ih

/-- Lookups across the element-preserving `Forall₂` relation. -/
theorem lookup_forall₂
    (sels entries : List (NormalizedSelectionKey × NormalizedSelection))
    (hfa : List.Forall₂ (fun e e' => e.1 = e'.1 ∧ same_selection_element e.2 e'.2)
      sels entries) :
    ∀ (k : NormalizedSelectionKey) (d : NormalizedFieldData)
      (ss : Option NormalizedSelectionSet) (sb : Option String),
    NormalizedSelectionMap.lookup sels k = some (.field d ss sb) →
    ∃ ss', NormalizedSelectionMap.lookup entries k = some (.field d ss' sb) := by
  induction hfa with
  | nil =>
    intro k d ss sb h
    simp [NormalizedSelectionMap.lookup] at h
  | @cons a b la lb hab _ ih =>
    intro k d ss sb h
    obtain ⟨hk, hel⟩ := hab
    unfold NormalizedSelectionMap.lookup at h ⊢
    by_cases hak : (a.1 == k) = true
    · simp only [List.find?_cons, hak] at h
      simp only [Option.map_some'] at h
      injection h with h
      have hbk : (b.1 == k) = true := by rw [← hk]; exact hak
      simp only [List.find?_cons, hbk]
      rw [h] at hel
      cases hvb : b.2 with
      | field d1 ss1 sb1 =>
        rw [hvb] at hel
        unfold same_selection_element at hel
        obtain ⟨hd, hsb⟩ := hel
        refine ⟨ss1, ?_⟩
        simp only [Option.map_some', hvb, hd, hsb]
      | fragmentSpread d1 ss1 =>
        rw [hvb] at hel
        exact absurd hel (by unfold same_selection_element; simp)
      | inlineFragment d1 ss1 =>
        rw [hvb] at hel
        exact absurd hel (by unfold same_selection_element; simp)
    · have hak' : (a.1 == k) = false := by simpa using hak
      simp only [List.find?_cons, hak'] at h
      have hbk : (b.1 == k) = false := by rw [← hk]; exact hak'
      simp only [List.find?_cons, hbk]
      exact ih k d ss sb h

/-- C6: the behavior of `optimize_sibling_typenames` at the top level of a
selection set.
(1) If the enclosing type is registered as an interface-object type, no entry
is removed: the result's keys equal the input's keys (in particular
`__typename` is never removed).
(2) A selection set whose only selection is a single field with no
sub-selection set (in particular a sole leaf `__typename`) is left untouched.
(3) Otherwise, when the key scan finds a first `__typename` field entry
(key `tkey`, data `td`) and a first other field entry (key `skey`), the
`__typename` entry is removed — the result's keys are the input's keys minus
`tkey`, in order — and the sibling field at `skey` now carries `__typename`'s
response name as its sibling-typename attachment. -/
theorem optimize_sibling_typenames_characterization
    (reg : List String) (S : NormalizedSelectionSet) :
    (∀ R, reg.contains S.type_position.type_name = true →
      S.optimize_sibling_typenames reg = .ok R →
      R.selections.map Prod.fst = S.selections.map Prod.fst) ∧
    (∀ k d sib, S.selections = [(k, .field d none sib)] →
      S.optimize_sibling_typenames reg = .ok S) ∧
    (∀ R tkey skey td tss tsib,
      reg.contains S.type_position.type_name = false →
      typename_sibling_scan false S.selections none none = (some tkey, some skey) →
      NormalizedSelectionMap.lookup S.selections tkey = some (.field td tss tsib) →
      S.optimize_sibling_typenames reg = .ok R →
      R.selections.map Prod.fst =
        (S.selections.map Prod.fst).filter (fun key => key ≠ tkey) ∧
      ∃ sd sss, NormalizedSelectionMap.lookup R.selections skey =
        some (.field sd sss (some td.response_name))) := by
  obtain ⟨sch, tp, sels⟩ := S
  refine ⟨?_, ?_, ?_⟩
  · intro R hio hok
    unfold NormalizedSelectionSet.optimize_sibling_typenames at hok
    simp only [NormalizedSelectionSet.type_position_mk] at hio
    rw [hio] at hok
    dsimp only at hok
    cases hl : optimize_sibling_typenames_loop reg true sels none none with
    | error e => rw [hl] at hok; exact absurd hok (by simp)
    | ok out =>
      obtain ⟨entries, tk', sk'⟩ := out
      rw [hl] at hok
      obtain ⟨hkeys, hscan, -⟩ :=
        optimize_sibling_typenames_loop_spec reg true sels none none entries tk' sk' hl
      have htk : tk' = none := by
        have := typename_sibling_scan_io sels none
        rw [← hscan] at this
        exact this
      subst htk
      cases sk' with
      | none =>
        injection hok with hok
        subst hok
        simpa using hkeys
      | some sk =>
        injection hok with hok
        subst hok
        simpa using hkeys
  · intro k d sib hsels
    simp only [NormalizedSelectionSet.selections_mk] at hsels
    subst hsels
    unfold NormalizedSelectionSet.optimize_sibling_typenames
    unfold optimize_sibling_typenames_loop
    unfold optimize_sibling_typenames_loop
    unfold scan_step
    dsimp only
    by_cases hc : (d.name == "__typename" && !reg.contains tp.type_name) = true
    · simp only [hc, Bool.and_true, Option.isNone_none, if_true]
    · simp only [hc, Bool.and_true, Option.isNone_none, Bool.false_eq_true, if_false]
      rfl
  · intro R tkey skey td tss tsib hio hscan hlookup hok
    unfold NormalizedSelectionSet.optimize_sibling_typenames at hok
    simp only [NormalizedSelectionSet.type_position_mk] at hio
    rw [hio] at hok
    dsimp only at hok
    cases hl : optimize_sibling_typenames_loop reg false sels none none with
    | error e => rw [hl] at hok; exact absurd hok (by simp)
    | ok out =>
      obtain ⟨entries, tk', sk'⟩ := out
      rw [hl] at hok
      obtain ⟨hkeys, hscanl, hfa⟩ :=
        optimize_sibling_typenames_loop_spec reg false sels none none entries tk' sk' hl
      simp only [NormalizedSelectionSet.selections_mk] at hscan
      rw [hscan] at hscanl
      injection hscanl with htk hsk
      subst htk; subst hsk
      simp only [NormalizedSelectionSet.selections_mk] at hlookup
      obtain ⟨tss2, hlook2⟩ := lookup_forall₂ sels entries hfa tkey td tss tsib hlookup
      dsimp only at hok
      rw [hlook2] at hok
      dsimp only at hok
      cases hlook3 : NormalizedSelectionMap.lookup
          (NormalizedSelectionMap.remove entries tkey) skey with
      | none => rw [hlook3] at hok; exact absurd hok (by simp)
      | some v =>
        rw [hlook3] at hok
        cases v with
        | field sd sss ssb =>
          injection hok with hok
          subst hok
          constructor
          · simp only [NormalizedSelectionSet.selections_mk]
            rw [keys_set_field_sibling_typename, keys_remove, hkeys]
          · refine ⟨sd, sss, ?_⟩
            simp only [NormalizedSelectionSet.selections_mk]
            exact lookup_set_field_sibling_typename _ skey _ sd sss ssb hlook3
        | fragmentSpread sd sss => exact absurd hok (by simp)
        | inlineFragment sd sss => exact absurd hok (by simp)

/-- Witness for C6: on `{ __typename, a }` against non-registered `T`, the
`__typename` entry is removed and `a` is annotated; and on a registered
interface-object `T`, the keys are untouched. -/
theorem optimize_sibling_typenames_characterization_witness :
    (typename_sibling_scan false
        [((exField (.objectPos "T") "__typename").key,
          .field (exField (.objectPos "T") "__typename") none none),
         ((exField (.objectPos "T") "a").key, exFieldSel (.objectPos "T") "a")]
        none none =
      (some (exField (.objectPos "T") "__typename").key,
        some (exField (.objectPos "T") "a").key)) ∧
    ((NormalizedSelectionSet.mk exSchema (.objectPos "T")
        [((exField (.objectPos "T") "__typename").key,
          .field (exField (.objectPos "T") "__typename") none none),
         ((exField (.objectPos "T") "a").key,
          exFieldSel (.objectPos "T") "a")]).optimize_sibling_typenames [] =
      .ok (.mk exSchema (.objectPos "T")
        [((exField (.objectPos "T") "a").key,
          .field (exField (.objectPos "T") "a") none (some "__typename"))])) ∧
    (NormalizedSelectionSet.selections (.mk exSchema (.objectPos "T")
          [((exField (.objectPos "T") "a").key,
            .field (exField (.objectPos "T") "a") none (some "__typename"))])).map
        Prod.fst =
      (([((exField (.objectPos "T") "__typename").key,
          .field (exField (.objectPos "T") "__typename") none none),
         ((exField (.objectPos "T") "a").key,
          exFieldSel (.objectPos "T") "a")].map Prod.fst).filter
        (fun key => key ≠ (exField (.objectPos "T") "__typename").key)) ∧
    ((NormalizedSelectionSet.mk exSchema (.objectPos "T")
        [((exField (.objectPos "T") "a").key,
          .field (exField (.objectPos "T") "a") none none)]).optimize_sibling_typenames ["T"] =
      .ok (.mk exSchema (.objectPos "T")
        [((exField (.objectPos "T") "a").key,
          .field (exField (.objectPos "T") "a") none none)])) := by
  refine ⟨by decide, rfl, ?_, ?_⟩
  · exact ((optimize_sibling_typenames_characterization []
      (.mk exSchema (.objectPos "T")
        [((exField (.objectPos "T") "__typename").key,
          .field (exField (.objectPos "T") "__typename") none none),
         ((exField (.objectPos "T") "a").key,
          exFieldSel (.objectPos "T") "a")])).2.2
      (.mk exSchema (.objectPos "T")
        [((exField (.objectPos "T") "a").key,
          .field (exField (.objectPos "T") "a") none (some "__typename"))])
      (exField (.objectPos "T") "__typename").key
      (exField (.objectPos "T") "a").key
      (exField (.objectPos "T") "__typename") none none
      rfl (by decide) rfl rfl).1
  · exact (optimize_sibling_typenames_characterization ["T"]
      (.mk exSchema (.objectPos "T")
        [((exField (.objectPos "T") "a").key,
          .field (exField (.objectPos "T") "a") none none)])).2.1
      (exField (.objectPos "T") "a").key (exField (.objectPos "T") "a") none rfl

/-! ## C7 — dependency-ordered fragment mapping -/

theorem DepOrdered.append (table : List (String × FragmentDependencies))
    (ts1 : List String) :
    ∀ resolved ts2, DepOrdered table resolved ts1 →
    DepOrdered table (resolved ++ ts1) ts2 →
    DepOrdered table resolved (ts1 ++ ts2) := by
  induction ts1 with
  | nil =>
    intro resolved ts2 _ h2
    simpa using h2
  | cons n rest ih =>
    intro resolved ts2 h1 h2
    cases h1 with
    | cons _ _ _ hdeps hrest =>
      refine DepOrdered.cons _ _ _ hdeps ?_
      refine ih _ _ hrest ?_
      simpa [List.append_assoc] using h2

theorem namedfragments_contains_iff (nf : NamedFragments) (n : String) :
    nf.contains n = true ↔ n ∈ nf.map Prod.fst := by
  unfold NamedFragments.contains
  rw [List.any_eq_true]
  constructor
  · rintro ⟨e, he, hbeq⟩
    exact List.mem_map.mpr ⟨e, he, beq_iff_eq.mp hbeq⟩
  · intro h
    obtain ⟨e, he, hk⟩ := List.mem_map.mp h
    exact ⟨e, he, beq_iff_eq.mpr hk⟩

theorem contains_insert (nf : NamedFragments) (f : NormalizedFragment) (n : String) :
    (nf.insert f).contains n = true ↔ (nf.contains n = true ∨ n = f.name) := by
  unfold NamedFragments.insert
  by_cases hp : nf.any (fun e => e.1 == f.name)
  · rw [if_pos hp]
    simp only [namedfragments_contains_iff]
    have hkeys : (nf.map (fun e => if e.1 == f.name then (e.1, f) else e)).map Prod.fst =
        nf.map Prod.fst := by
      rw [List.map_map]
      apply List.map_congr_left
      intro e _
      by_cases hk : (e.1 == f.name) = true
      · have hk' := beq_iff_eq.mp hk
        simp [hk']
      · have hk' : ¬ e.1 = f.name := by simpa using hk
        simp [hk']
    rw [hkeys]
    constructor
    · exact Or.inl
    · rintro (h | h)
      · exact h
      · subst h
        obtain ⟨e, he, hbeq⟩ := List.any_eq_true.mp hp
        exact List.mem_map.mpr ⟨e, he, beq_iff_eq.mp hbeq⟩
  · rw [if_neg hp]
    simp only [namedfragments_contains_iff, List.map_append, List.map_cons,
      List.map_nil, List.mem_append, List.mem_singleton]

theorem lookup_of_nodup_keys {β : Type} :
    ∀ (l : List (String × β)), (l.map Prod.fst).Nodup →
    ∀ e ∈ l, l.lookup e.1 = some e.2 := by
  intro l
  induction l with
  | nil => intro _ e he; simp at he
  | cons a rest ih =>
    intro hnodup e he
    obtain ⟨a1, a2⟩ := a
    simp only [List.map_cons, List.nodup_cons] at hnodup
    rcases List.mem_cons.mp he with he | he
    · subst he
      simp [List.lookup]
    · have hne : (e.1 == a1) = false := by
        simp only [beq_eq_false_iff_ne, ne_eq]
        intro hh
        exact hnodup.1 (hh ▸ List.mem_map.mpr ⟨e, he, rfl⟩)
      simp only [List.lookup, hne]
      exact ih hnodup.2 e he

/-- With pairwise-distinct names, every table entry's stored dependencies are
its `deps_of`. -/
theorem deps_of_mem (table : List (String × FragmentDependencies))
    (hnodup : (table.map Prod.fst).Nodup) :
    ∀ e ∈ table, deps_of table e.1 = e.2.depends_on := by
  intro e he
  unfold deps_of
  rw [lookup_of_nodup_keys table hnodup e he]
  rfl

/-- A nonempty list has an element minimizing a `Nat`-valued function. -/
theorem exists_min_nat_image {α : Type} (f : α → Nat) :
    ∀ (l : List α), l ≠ [] → ∃ a ∈ l, ∀ b ∈ l, f a ≤ f b := by
  intro l
  induction l with
  | nil => intro h; exact absurd rfl h
  | cons a rest ih =>
    intro _
    cases rest with
    | nil =>
      refine ⟨a, by simp, ?_⟩
      intro b hb
      rcases List.mem_cons.mp hb with hb | hb
      · subst hb; exact Nat.le_refl _
      · simp at hb
    | cons b rest' =>
      obtain ⟨m, hm, hmin⟩ := ih (by simp)
      by_cases hle : f a ≤ f m
      · refine ⟨a, by simp, ?_⟩
        intro c hc
        rcases List.mem_cons.mp hc with hc | hc
        · subst hc; exact Nat.le_refl _
        · exact Nat.le_trans hle (hmin c hc)
      · refine ⟨m, List.mem_cons.mpr (Or.inr hm), ?_⟩
        intro c hc
        rcases List.mem_cons.mp hc with hc | hc
        · subst hc
          exact Nat.le_of_lt (Nat.lt_of_not_le hle)
        · exact hmin c hc

/-- A total mapper makes the retain pass total. -/
theorem fragments_retain_pass_total (mapper : FragmentMapper)
    (hm : ∀ f nf, ∃ r, mapper f nf = .ok r) :
    ∀ entries removed mapped trace,
    ∃ out, fragments_retain_pass mapper entries removed mapped trace = .ok out := by
  intro entries
  induction entries with
  | nil => intro removed mapped trace; exact ⟨_, rfl⟩
  | cons e rest ih =>
    intro removed mapped trace
    obtain ⟨name, info⟩ := e
    unfold fragments_retain_pass
    by_cases hc : can_remove info mapped removed
    · rw [if_pos hc]
      obtain ⟨r, hr⟩ := hm info.fragment mapped
      rw [hr]
      cases r with
      | some m => exact ih removed (mapped.insert m) (trace ++ [name])
      | none => exact ih (removed ++ [name]) mapped (trace ++ [name])
    · rw [if_neg hc]
      obtain ⟨out, hout⟩ := ih removed mapped trace
      rw [hout]
      exact ⟨_, rfl⟩

/-- What one retain pass establishes: the retained entries form a sublist; the
trace is extended by exactly the processed names (which come from the entries
and, with the retained names, cover them); the newly processed names were
dependency-resolved at invocation time (`DepOrdered` from the incoming trace);
and "resolved" (mapped or removed) stays in sync with "traced". -/
theorem fragments_retain_pass_spec (mapper : FragmentMapper)
    (hm_name : ∀ f nf r, mapper f nf = .ok (some r) → r.name = f.name)
    (table : List (String × FragmentDependencies)) :
    ∀ entries removed mapped trace kept removed' mapped' trace',
    fragments_retain_pass mapper entries removed mapped trace =
      .ok (kept, removed', mapped', trace') →
    (∀ e ∈ entries, e.2.depends_on = deps_of table e.1) →
    (∀ e ∈ entries, e.2.fragment.name = e.1) →
    (∀ n, n ∈ trace → (mapped.contains n = true ∨ n ∈ removed)) →
    (∀ n, (mapped.contains n = true ∨ n ∈ removed) → n ∈ trace) →
    ∃ ts, trace' = trace ++ ts ∧
      kept.Sublist entries ∧
      (∀ n ∈ ts, n ∈ entries.map Prod.fst) ∧
      (∀ n ∈ entries.map Prod.fst, n ∈ kept.map Prod.fst ∨ n ∈ ts) ∧
      kept.length + ts.length = entries.length ∧
      DepOrdered table trace ts ∧
      (∀ n, n ∈ trace' → (mapped'.contains n = true ∨ n ∈ removed')) ∧
      (∀ n, (mapped'.contains n = true ∨ n ∈ removed') → n ∈ trace') := by
  intro entries
  induction entries with
  | nil =>
    intro removed mapped trace kept removed' mapped' trace' hpass _ _ hI1 hI2
    unfold fragments_retain_pass at hpass
    injection hpass with hpass
    injection hpass with h1 hpass
    injection hpass with h2 hpass
    injection hpass with h3 h4
    subst h1; subst h2; subst h3; subst h4
    exact ⟨[], by simp, List.Sublist.refl _, by simp, by simp, rfl,
      DepOrdered.nil _, hI1, hI2⟩
  | cons e rest ih =>
    intro removed mapped trace kept removed' mapped' trace' hpass hconsist hfrag hI1 hI2
    obtain ⟨name, info⟩ := e
    unfold fragments_retain_pass at hpass
    by_cases hc : can_remove info mapped removed
    · rw [if_pos hc] at hpass
      have hdeps : ∀ d ∈ info.depends_on, mapped.contains d = true ∨ d ∈ removed := by
        intro d hd
        have hall := List.all_eq_true.mp hc d hd
        rcases Bool.or_eq_true_iff.mp hall with h | h
        · exact Or.inl h
        · exact Or.inr (by simpa using h)
      have hdeps_trace : ∀ d ∈ deps_of table name, d ∈ trace := by
        intro d hd
        have hdd : d ∈ info.depends_on := by
          rw [hconsist (name, info) (by simp)]
          exact hd
        exact hI2 d (hdeps d hdd)
      cases hr : mapper info.fragment mapped with
      | error e0 => rw [hr] at hpass; exact absurd hpass (by simp)
      | ok r =>
        rw [hr] at hpass
        cases r with
        | some m =>
          have hmname : m.name = name := by
            rw [hm_name info.fragment mapped m hr]
            exact hfrag (name, info) (by simp)
          have hI1' : ∀ n, n ∈ trace ++ [name] →
              ((mapped.insert m).contains n = true ∨ n ∈ removed) := by
            intro n hn
            rcases List.mem_append.mp hn with hn | hn
            · rcases hI1 n hn with h | h
              · exact Or.inl ((contains_insert mapped m n).mpr (Or.inl h))
              · exact Or.inr h
            · simp only [List.mem_singleton] at hn
              subst hn
              exact Or.inl ((contains_insert mapped m n).mpr (Or.inr hmname.symm))
          have hI2' : ∀ n, ((mapped.insert m).contains n = true ∨ n ∈ removed) →
              n ∈ trace ++ [name] := by
            intro n hn
            rcases hn with hn | hn
            · rcases (contains_insert mapped m n).mp hn with h | h
              · exact List.mem_append.mpr (Or.inl (hI2 n (Or.inl h)))
              · rw [hmname] at h
                subst h
                exact List.mem_append.mpr (Or.inr (by simp))
            · exact List.mem_append.mpr (Or.inl (hI2 n (Or.inr hn)))
          obtain ⟨ts', hts'1, hts'2, hts'3, hts'4, hts'5, hts'6, hts'7, hts'8⟩ :=
            ih removed (mapped.insert m) (trace ++ [name]) kept removed' mapped'
              trace' hpass (fun e he => hconsist e (by simp [he]))
              (fun e he => hfrag e (by simp [he])) hI1' hI2'
          refine ⟨name :: ts', ?_, ?_, ?_, ?_, ?_, ?_, hts'7, hts'8⟩
          · rw [hts'1]; simp
          · exact hts'2.cons _
          · intro n hn
            rcases List.mem_cons.mp hn with hn | hn
            · subst hn; simp
            · simp only [List.map_cons, List.mem_cons]
              exact Or.inr (hts'3 n hn)
          · intro n hn
            rcases List.mem_cons.mp hn with hn | hn
            · subst hn; exact Or.inr (by simp)
            · rcases hts'4 n hn with h | h
              · exact Or.inl h
              · exact Or.inr (List.mem_cons.mpr (Or.inr h))
          · simp only [List.length_cons]
            omega
          · exact DepOrdered.cons _ _ _ hdeps_trace hts'6
        | none =>
          have hI1' : ∀ n, n ∈ trace ++ [name] →
              (mapped.contains n = true ∨ n ∈ removed ++ [name]) := by
            intro n hn
            rcases List.mem_append.mp hn with hn | hn
            · rcases hI1 n hn with h | h
              · exact Or.inl h
              · exact Or.inr (List.mem_append.mpr (Or.inl h))
            · simp only [List.mem_singleton] at hn
              subst hn
              exact Or.inr (List.mem_append.mpr (Or.inr (by simp)))
          have hI2' : ∀ n, (mapped.contains n = true ∨ n ∈ removed ++ [name]) →
              n ∈ trace ++ [name] := by
            intro n hn
            rcases hn with hn | hn
            · exact List.mem_append.mpr (Or.inl (hI2 n (Or.inl hn)))
            · rcases List.mem_append.mp hn with h | h
              · exact List.mem_append.mpr (Or.inl (hI2 n (Or.inr h)))
              · exact List.mem_append.mpr (Or.inr h)
          obtain ⟨ts', hts'1, hts'2, hts'3, hts'4, hts'5, hts'6, hts'7, hts'8⟩ :=
            ih (removed ++ [name]) mapped (trace ++ [name]) kept removed' mapped'
              trace' hpass (fun e he => hconsist e (by simp [he]))
              (fun e he => hfrag e (by simp [he])) hI1' hI2'
          refine ⟨name :: ts', ?_, ?_, ?_, ?_, ?_, ?_, hts'7, hts'8⟩
          · rw [hts'1]; simp
          · exact hts'2.cons _
          · intro n hn
            rcases List.mem_cons.mp hn with hn | hn
            · subst hn; simp
            · simp only [List.map_cons, List.mem_cons]
              exact Or.inr (hts'3 n hn)
          · intro n hn
            rcases List.mem_cons.mp hn with hn | hn
            · subst hn; exact Or.inr (by simp)
            · rcases hts'4 n hn with h | h
              · exact Or.inl h
              · exact Or.inr (List.mem_cons.mpr (Or.inr h))
          · simp only [List.length_cons]
            omega
          · exact DepOrdered.cons _ _ _ hdeps_trace hts'6
    · rw [if_neg hc] at hpass
      cases hrec : fragments_retain_pass mapper rest removed mapped trace with
      | error e0 => rw [hrec] at hpass; exact absurd hpass (by simp)
      | ok out =>
        obtain ⟨kept0, removed0, mapped0, trace0⟩ := out
        rw [hrec] at hpass
        injection hpass with hpass
        injection hpass with h1 hpass
        injection hpass with h2 hpass
        injection hpass with h3 h4
        subst h1; subst h2; subst h3; subst h4
        obtain ⟨ts, hts1, hts2, hts3, hts4, hts5, hts6, hts7, hts8⟩ :=
          ih removed mapped trace kept0 removed0 mapped0 trace0 hrec
            (fun e he => hconsist e (by simp [he]))
            (fun e he => hfrag e (by simp [he])) hI1 hI2
        refine ⟨ts, hts1, hts2.cons₂ _, ?_, ?_, ?_, hts6, hts7, hts8⟩
        · intro n hn
          simp only [List.map_cons, List.mem_cons]
          exact Or.inr (hts3 n hn)
        · intro n hn
          rcases List.mem_cons.mp hn with hn | hn
          · subst hn
            exact Or.inl (by simp)
          · rcases hts4 n hn with h | h
            · exact Or.inl (List.mem_cons.mpr (Or.inr h))
            · exact Or.inr h
        · simp only [List.length_cons]
          omega

/-- The entries retained by a pass form a sublist of the entries given to it. -/
theorem fragments_retain_pass_sublist (mapper : FragmentMapper) :
    ∀ entries removed mapped trace kept removed' mapped' trace',
    fragments_retain_pass mapper entries removed mapped trace =
      .ok (kept, removed', mapped', trace') →
    kept.Sublist entries := by
  intro entries
  induction entries with
  | nil =>
    intro removed mapped trace kept removed' mapped' trace' hpass
    unfold fragments_retain_pass at hpass
    injection hpass with hpass
    injection hpass with h1 _
    subst h1
    exact List.Sublist.refl _
  | cons e rest ih =>
    intro removed mapped trace kept removed' mapped' trace' hpass
    obtain ⟨name, info⟩ := e
    unfold fragments_retain_pass at hpass
    by_cases hc : can_remove info mapped removed
    · rw [if_pos hc] at hpass
      cases hr : mapper info.fragment mapped with
      | error e0 => rw [hr] at hpass; exact absurd hpass (by simp)
      | ok r =>
        rw [hr] at hpass
        cases r with
        | some m =>
          exact (ih removed (mapped.insert m) (trace ++ [name]) kept removed'
            mapped' trace' hpass).cons _
        | none =>
          exact (ih (removed ++ [name]) mapped (trace ++ [name]) kept removed'
            mapped' trace' hpass).cons _
    · rw [if_neg hc] at hpass
      cases hrec : fragments_retain_pass mapper rest removed mapped trace with
      | error e0 => rw [hrec] at hpass; exact absurd hpass (by simp)
      | ok out =>
        obtain ⟨kept0, removed0, mapped0, trace0⟩ := out
        rw [hrec] at hpass
        injection hpass with hpass
        injection hpass with h1 _
        subst h1
        exact (ih removed mapped trace kept0 removed0 mapped0 trace0 hrec).cons₂ _

/-- If some entry is processable at the start of the pass, the pass strictly
shrinks the entry list. -/
theorem fragments_retain_pass_progress (mapper : FragmentMapper) :
    ∀ entries removed mapped trace kept removed' mapped' trace',
    fragments_retain_pass mapper entries removed mapped trace =
      .ok (kept, removed', mapped', trace') →
    (∃ e ∈ entries, can_remove e.2 mapped removed = true) →
    kept.length < entries.length := by
  intro entries
  induction entries with
  | nil =>
    intro removed mapped trace kept removed' mapped' trace' _ hw
    obtain ⟨e, he, -⟩ := hw
    simp at he
  | cons e rest ih =>
    intro removed mapped trace kept removed' mapped' trace' hpass hw
    obtain ⟨name, info⟩ := e
    unfold fragments_retain_pass at hpass
    by_cases hc : can_remove info mapped removed
    · rw [if_pos hc] at hpass
      cases hr : mapper info.fragment mapped with
      | error e0 => rw [hr] at hpass; exact absurd hpass (by simp)
      | ok r =>
        rw [hr] at hpass
        have hlen : ∀ rm mp tr, fragments_retain_pass mapper rest rm mp tr =
            .ok (kept, removed', mapped', trace') → kept.length ≤ rest.length := by
          intro rm mp tr hp
          have := fragments_retain_pass_sublist mapper rest rm mp tr kept
            removed' mapped' trace' hp
          exact this.length_le
        cases r with
        | some m =>
          have := hlen removed (mapped.insert m) (trace ++ [name]) hpass
          simp only [List.length_cons]
          omega
        | none =>
          have := hlen (removed ++ [name]) mapped (trace ++ [name]) hpass
          simp only [List.length_cons]
          omega
    · rw [if_neg hc] at hpass
      cases hrec : fragments_retain_pass mapper rest removed mapped trace with
      | error e0 => rw [hrec] at hpass; exact absurd hpass (by simp)
      | ok out =>
        obtain ⟨kept0, removed0, mapped0, trace0⟩ := out
        rw [hrec] at hpass
        injection hpass with hpass
        injection hpass with h1 hpass
        injection hpass with h2 hpass
        injection hpass with h3 h4
        subst h1; subst h2; subst h3; subst h4
        have hw' : ∃ e ∈ rest, can_remove e.2 mapped removed = true := by
          obtain ⟨e, he, hce⟩ := hw
          rcases List.mem_cons.mp he with he | he
          · subst he
            exact absurd hce hc
          · exact ⟨e, he, hce⟩
        have := ih removed mapped trace kept0 removed0 mapped0 trace0 hrec hw'
        simp only [List.length_cons]
        omega

/-- An element of `l.take i` has its first index below `i`. -/
theorem indexOf_lt_of_mem_take {α : Type} [DecidableEq α] (a : α) :
    ∀ (l : List α) (i : Nat), a ∈ l.take i → l.indexOf a < i := by
  intro l
  induction l with
  | nil => intro i h; simp at h
  | cons b rest ih =>
    intro i h
    cases i with
    | zero => simp at h
    | succ j =>
      simp only [List.take_succ_cons, List.mem_cons] at h
      by_cases hab : b = a
      · subst hab
        simp [List.indexOf_cons_self]
      · rcases h with h | h
        · exact absurd h.symm hab
        · have := ih j h
          rw [List.indexOf_cons_ne _ (by exact fun hh => hab hh)]
          omega

/-- The `while` loop of `map_in_dependency_order`, specified: with a total,
name-preserving mapper, a dependency table consistent with `deps_of`, entries
whose dependencies are all resolved or still pending, and a topological order
`topo` witnessing acyclicity of the dependency relation, the loop succeeds with
enough fuel, its trace extension covers the entry names exactly, and the trace
is dependency-ordered. -/
theorem fragments_map_loop_spec (mapper : FragmentMapper)
    (hm_total : ∀ f nf, ∃ r, mapper f nf = .ok r)
    (hm_name : ∀ f nf r, mapper f nf = .ok (some r) → r.name = f.name)
    (table : List (String × FragmentDependencies)) (topo : List String)
    (htopo : ∀ n ∈ topo, ∀ d ∈ deps_of table n, d ∈ topo.take (topo.indexOf n)) :
    ∀ fuel entries removed mapped trace,
    entries.length ≤ fuel →
    (∀ e ∈ entries, e.2.depends_on = deps_of table e.1) →
    (∀ e ∈ entries, e.2.fragment.name = e.1) →
    (∀ e ∈ entries, e.1 ∈ topo) →
    (∀ e ∈ entries, ∀ d ∈ e.2.depends_on, d ∈ trace ∨ d ∈ entries.map Prod.fst) →
    (∀ n, n ∈ trace → (mapped.contains n = true ∨ n ∈ removed)) →
    (∀ n, (mapped.contains n = true ∨ n ∈ removed) → n ∈ trace) →
    ∃ mapped' ts,
      fragments_map_loop mapper fuel entries removed mapped trace =
        .ok (mapped', trace ++ ts) ∧
      (∀ n ∈ ts, n ∈ entries.map Prod.fst) ∧
      (∀ n ∈ entries.map Prod.fst, n ∈ ts) ∧
      ts.length = entries.length ∧
      DepOrdered table trace ts := by
  intro fuel
  induction fuel with
  | zero =>
    intro entries removed mapped trace hfuel _ _ _ _ _ _
    have hnil : entries = [] := List.length_eq_zero.mp (Nat.le_zero.mp hfuel)
    subst hnil
    exact ⟨mapped, [], by simp [fragments_map_loop], by simp, by simp, rfl,
      DepOrdered.nil _⟩
  | succ fuel ih =>
    intro entries removed mapped trace hfuel hconsist hfrag hmem hclosed hI1 hI2
    by_cases hemp : entries.isEmpty = true
    · have hnil : entries = [] := by simpa [List.isEmpty_iff] using hemp
      subst hnil
      exact ⟨mapped, [], by simp [fragments_map_loop], by simp, by simp, rfl,
        DepOrdered.nil _⟩
    · have hne : entries ≠ [] := by
        intro h
        subst h
        simp at hemp
      obtain ⟨out, hpass⟩ :=
        fragments_retain_pass_total mapper hm_total entries removed mapped trace
      obtain ⟨kept, removed1, mapped1, trace1⟩ := out
      obtain ⟨ts1, hts1, hsub, htssub, hcover, hplen, hpdep, hI1', hI2'⟩ :=
        fragments_retain_pass_spec mapper hm_name table entries removed mapped
          trace kept removed1 mapped1 trace1 hpass hconsist hfrag hI1 hI2
      obtain ⟨emin, hemin, hminall⟩ :=
        exists_min_nat_image (fun e => topo.indexOf e.1) entries hne
      have hdeps_trace : ∀ d ∈ emin.2.depends_on, d ∈ trace := by
        intro d hd
        rcases hclosed emin hemin d hd with h | h
        · exact h
        · exfalso
          obtain ⟨e', he', hde'⟩ := List.mem_map.mp h
          have hdm : d ∈ deps_of table emin.1 := by
            rw [← hconsist emin hemin]
            exact hd
          have htake := htopo emin.1 (hmem emin hemin) d hdm
          have hlt := indexOf_lt_of_mem_take d topo (topo.indexOf emin.1) htake
          have hge := hminall e' he'
          rw [hde'] at hge
          omega
      have hcan : can_remove emin.2 mapped removed = true := by
        unfold can_remove
        rw [List.all_eq_true]
        intro d hd
        rcases hI1 d (hdeps_trace d hd) with h | h
        · exact Bool.or_eq_true_iff.mpr (Or.inl h)
        · refine Bool.or_eq_true_iff.mpr (Or.inr ?_)
          simpa using h
      have hprog := fragments_retain_pass_progress mapper entries removed mapped
        trace kept removed1 mapped1 trace1 hpass ⟨emin, hemin, hcan⟩
      have hklen : ¬ (kept.length = entries.length) := Nat.ne_of_lt hprog
      have hfuel' : kept.length ≤ fuel := by omega
      have hconsist' : ∀ e ∈ kept, e.2.depends_on = deps_of table e.1 :=
        fun e he => hconsist e (hsub.subset he)
      have hfrag' : ∀ e ∈ kept, e.2.fragment.name = e.1 :=
        fun e he => hfrag e (hsub.subset he)
      have hmem' : ∀ e ∈ kept, e.1 ∈ topo :=
        fun e he => hmem e (hsub.subset he)
      have hclosed' : ∀ e ∈ kept, ∀ d ∈ e.2.depends_on,
          d ∈ trace1 ∨ d ∈ kept.map Prod.fst := by
        intro e he d hd
        rcases hclosed e (hsub.subset he) d hd with h | h
        · rw [hts1]
          exact Or.inl (List.mem_append.mpr (Or.inl h))
        · rcases hcover d h with h' | h'
          · exact Or.inr h'
          · rw [hts1]
            exact Or.inl (List.mem_append.mpr (Or.inr h'))
      obtain ⟨mapped2, ts2, hloop2, h2sub, h2cover, h2len, h2dep⟩ :=
        ih kept removed1 mapped1 trace1 hfuel' hconsist' hfrag' hmem' hclosed'
          hI1' hI2'
      have heq : fragments_map_loop mapper (fuel + 1) entries removed mapped
          trace = fragments_map_loop mapper fuel kept removed1 mapped1 trace1 := by
        conv_lhs => rw [fragments_map_loop]
        rw [if_neg hemp, hpass]
        dsimp only
        rw [if_neg hklen]
      refine ⟨mapped2, ts1 ++ ts2, ?_, ?_, ?_, ?_, ?_⟩
      · rw [heq, hloop2, hts1, List.append_assoc]
      · intro n hn
        rcases List.mem_append.mp hn with h | h
        · exact htssub n h
        · exact (hsub.map Prod.fst).subset (h2sub n h)
      · intro n hn
        rcases hcover n hn with h | h
        · exact List.mem_append.mpr (Or.inr (h2cover n h))
        · exact List.mem_append.mpr (Or.inl h)
      · rw [List.length_append]
        omega
      · refine DepOrdered.append table ts1 trace ts2 hpdep ?_
        rw [← hts1]
        exact h2dep

/-- C7: with a total, name-preserving mapper, a dependency table whose names
are pairwise distinct and closed under the spread-dependency relation, and a
topological order `topo` of the fragment names witnessing acyclicity (every
fragment's dependencies appear strictly earlier in `topo`),
`map_in_dependency_order` terminates successfully having invoked its mapper
exactly once per fragment of the input table, and the invocation trace is
dependency-ordered: each fragment's spread dependencies were resolved (mapped
or recorded as removed — equivalently, traced) before the mapper ran on it. -/
theorem map_in_dependency_order_spec (self : NamedFragments)
    (mapper : FragmentMapper) (topo : List String)
    (hm_total : ∀ f nf, ∃ r, mapper f nf = .ok r)
    (hm_name : ∀ f nf r, mapper f nf = .ok (some r) → r.name = f.name)
    (hclosed : ∀ e ∈ self.dependency_table, ∀ d ∈ e.2.depends_on,
      d ∈ self.dependency_table.map Prod.fst)
    (hnodup : (self.dependency_table.map Prod.fst).Nodup)
    (hmem : ∀ e ∈ self.dependency_table, e.1 ∈ topo)
    (htopo : ∀ n ∈ topo, ∀ d ∈ deps_of self.dependency_table n,
      d ∈ topo.take (topo.indexOf n)) :
    ∃ result trace,
      self.map_in_dependency_order_traced mapper = .ok (result, trace) ∧
      self.map_in_dependency_order mapper = .ok result ∧
      (∀ n ∈ trace, n ∈ self.dependency_table.map Prod.fst) ∧
      (∀ n ∈ self.dependency_table.map Prod.fst, n ∈ trace) ∧
      trace.length = self.dependency_table.length ∧
      DepOrdered self.dependency_table [] trace := by
  have hconsist : ∀ e ∈ self.dependency_table,
      e.2.depends_on = deps_of self.dependency_table e.1 :=
    fun e he => (deps_of_mem self.dependency_table hnodup e he).symm
  have hfrag : ∀ e ∈ self.dependency_table, e.2.fragment.name = e.1 := by
    intro e he
    unfold NamedFragments.dependency_table at he
    obtain ⟨e0, _, he0⟩ := List.mem_map.mp he
    rw [← he0]
  have hI1 : ∀ n, n ∈ ([] : List String) →
      (NamedFragments.default.contains n = true ∨ n ∈ ([] : List String)) := by
    intro n hn
    simp at hn
  have hI2 : ∀ n, (NamedFragments.default.contains n = true ∨
      n ∈ ([] : List String)) → n ∈ ([] : List String) := by
    intro n hn
    rcases hn with h | h
    · simp [NamedFragments.default, NamedFragments.contains] at h
    · exact h
  obtain ⟨mapped', ts, hloop, hsub, hcov, hlen, hdep⟩ :=
    fragments_map_loop_spec mapper hm_total hm_name self.dependency_table topo
      htopo self.dependency_table.length self.dependency_table []
      NamedFragments.default [] (Nat.le_refl _) hconsist hfrag hmem
      (fun e he d hd => Or.inr (hclosed e he d hd)) hI1 hI2
  simp only [List.nil_append] at hloop
  have htraced : self.map_in_dependency_order_traced mapper =
      .ok (if mapped'.is_empty then none else some mapped', ts) := by
    unfold NamedFragments.map_in_dependency_order_traced
    dsimp only
    rw [hloop]
  refine ⟨if mapped'.is_empty then none else some mapped', ts, htraced, ?_,
    hsub, hcov, by simpa [List.length_map] using hlen, hdep⟩
  unfold NamedFragments.map_in_dependency_order
  rw [htraced]

/-- Witness for C7: on the two-fragment table where `A` spreads `B`, with the
identity mapper and the topological order `["B", "A"]`, the dependency-ordered
mapping succeeds and its trace covers both fragments in dependency order. -/
theorem map_in_dependency_order_spec_witness :
    ∃ result trace,
      c7Frags.map_in_dependency_order_traced c7IdMapper = .ok (result, trace) ∧
      c7Frags.map_in_dependency_order c7IdMapper = .ok result ∧
      (∀ n ∈ trace, n ∈ c7Frags.dependency_table.map Prod.fst) ∧
      (∀ n ∈ c7Frags.dependency_table.map Prod.fst, n ∈ trace) ∧
      trace.length = c7Frags.dependency_table.length ∧
      DepOrdered c7Frags.dependency_table [] trace :=
  map_in_dependency_order_spec c7Frags c7IdMapper ["B", "A"]
    (fun f nf => ⟨some f, rfl⟩)
    (fun f nf r h => by
      simp only [c7IdMapper, Except.ok.injEq, Option.some.injEq] at h
      rw [h])
    (by decide) (by decide) (by decide) (by decide)

/-! ## C5 — first-occurrence insertion order of `merge_selections_into` -/

theorem new_keys_cons (occ : List NormalizedSelectionKey) (s : NormalizedSelection)
    (rest : List NormalizedSelection) :
    new_keys occ (s :: rest) =
      if s.key ∈ occ then new_keys occ rest
      else s.key :: new_keys (occ ++ [s.key]) rest := rfl

theorem bucket_extend_nil {α : Type} (o : Option (List α)) :
    bucket_extend o [] = o := by
  cases o <;> simp [bucket_extend]

theorem bucket_extend_push {α : Type} (o : Option (List α)) (v : α) (p : List α) :
    bucket_extend (some (o.getD [] ++ [v])) p = bucket_extend o (v :: p) := by
  cases o <;> simp [bucket_extend]

theorem find?_append_of_none {α : Type} (p : α → Bool) :
    ∀ (l1 l2 : List α), (∀ x ∈ l1, ¬ p x = true) → (l1 ++ l2).find? p = l2.find? p := by
  intro l1
  induction l1 with
  | nil => intro l2 _; rfl
  | cons a l1 ih =>
    intro l2 hall
    have ha : p a = false := by
      have := hall a (by simp)
      simpa using this
    simp only [List.cons_append, List.find?_cons, ha]
    exact ih l2 (fun x hx => hall x (by simp [hx]))

theorem find?_append_of_some {α : Type} (p : α → Bool) :
    ∀ (l1 l2 : List α) (a : α), l1.find? p = some a → (l1 ++ l2).find? p = some a := by
  intro l1
  induction l1 with
  | nil => intro l2 a h; exact absurd h (by simp)
  | cons b l1 ih =>
    intro l2 a h
    by_cases hb : p b = true
    · simp only [List.cons_append, List.find?_cons, hb] at h ⊢
      exact h
    · have hb' : p b = false := by simpa using hb
      simp only [List.cons_append, List.find?_cons, hb'] at h ⊢
      exact ih l2 a h

theorem merge_bucket_lookup_nil {α : Type} (k : NormalizedSelectionKey) :
    merge_bucket_lookup ([] : List (NormalizedSelectionKey × List α)) k = none := rfl

theorem merge_bucket_lookup_map_push {α : Type} (k : NormalizedSelectionKey) (v : α) :
    ∀ b : List (NormalizedSelectionKey × List α),
    merge_bucket_lookup (b.map (fun e => if e.1 == k then (e.1, e.2 ++ [v]) else e)) k =
      (merge_bucket_lookup b k).map (fun l => l ++ [v]) := by
  intro b
  induction b with
  | nil => rfl
  | cons e rest ih =>
    unfold merge_bucket_lookup at ih ⊢
    simp only [List.map_cons]
    by_cases he : (e.1 == k) = true
    · rw [if_pos he]
      simp only [List.find?_cons, he]
      rfl
    · rw [if_neg he]
      have he' : (e.1 == k) = false := by simpa using he
      simp only [List.find?_cons, he']
      exact ih

theorem merge_bucket_lookup_map_push_ne {α : Type} (k k' : NormalizedSelectionKey)
    (v : α) (h : k' ≠ k) :
    ∀ b : List (NormalizedSelectionKey × List α),
    merge_bucket_lookup (b.map (fun e => if e.1 == k then (e.1, e.2 ++ [v]) else e)) k' =
      merge_bucket_lookup b k' := by
  intro b
  induction b with
  | nil => rfl
  | cons e rest ih =>
    unfold merge_bucket_lookup at ih ⊢
    simp only [List.map_cons]
    by_cases he : (e.1 == k) = true
    · rw [if_pos he]
      have hek : e.1 = k := beq_iff_eq.mp he
      have he' : (e.1 == k') = false := by
        rw [hek]
        exact beq_eq_false_iff_ne.mpr (fun hh => h hh.symm)
      simp only [List.find?_cons, he']
      exact ih
    · rw [if_neg he]
      by_cases he'' : (e.1 == k') = true
      · simp only [List.find?_cons, he'']
      · have he3 : (e.1 == k') = false := by simpa using he''
        simp only [List.find?_cons, he3]
        exact ih

theorem merge_bucket_lookup_some_of_any {α : Type}
    (b : List (NormalizedSelectionKey × List α)) (k : NormalizedSelectionKey)
    (hany : b.any (fun e => e.1 == k) = true) :
    ∃ l, merge_bucket_lookup b k = some l := by
  cases hlk : merge_bucket_lookup b k with
  | some l => exact ⟨l, rfl⟩
  | none =>
    exfalso
    unfold merge_bucket_lookup at hlk
    rw [Option.map_eq_none'] at hlk
    rw [List.find?_eq_none] at hlk
    obtain ⟨e, he, hek⟩ := List.any_eq_true.mp hany
    exact absurd hek (by simpa using hlk e he)

theorem merge_bucket_lookup_none_of_not_any {α : Type}
    (b : List (NormalizedSelectionKey × List α)) (k : NormalizedSelectionKey)
    (hany : ¬ b.any (fun e => e.1 == k) = true) :
    merge_bucket_lookup b k = none := by
  unfold merge_bucket_lookup
  rw [Option.map_eq_none', List.find?_eq_none]
  intro a ha
  intro hcontra
  exact hany (List.any_eq_true.mpr ⟨a, ha, hcontra⟩)

theorem merge_bucket_lookup_push_self {α : Type}
    (b : List (NormalizedSelectionKey × List α)) (k : NormalizedSelectionKey) (v : α) :
    merge_bucket_lookup (merge_bucket_push b k v) k =
      some ((merge_bucket_lookup b k).getD [] ++ [v]) := by
  unfold merge_bucket_push
  by_cases hany : b.any (fun e => e.1 == k) = true
  · rw [if_pos hany, merge_bucket_lookup_map_push]
    obtain ⟨l, hl⟩ := merge_bucket_lookup_some_of_any b k hany
    rw [hl]
    rfl
  · rw [if_neg hany]
    rw [merge_bucket_lookup_none_of_not_any b k hany]
    unfold merge_bucket_lookup
    rw [find?_append_of_none]
    · simp [List.find?_cons]
    · intro x hx hpx
      exact hany (List.any_eq_true.mpr ⟨x, hx, hpx⟩)

theorem merge_bucket_lookup_push_ne {α : Type}
    (b : List (NormalizedSelectionKey × List α)) (k k' : NormalizedSelectionKey)
    (v : α) (h : k' ≠ k) :
    merge_bucket_lookup (merge_bucket_push b k v) k' = merge_bucket_lookup b k' := by
  unfold merge_bucket_push
  by_cases hany : b.any (fun e => e.1 == k) = true
  · rw [if_pos hany]
    exact merge_bucket_lookup_map_push_ne k k' v h b
  · rw [if_neg hany]
    cases hlk : merge_bucket_lookup b k' with
    | some l =>
      unfold merge_bucket_lookup at hlk ⊢
      cases hfind : b.find? (fun e => e.1 == k') with
      | none => rw [hfind] at hlk; exact absurd hlk (by simp)
      | some e =>
        rw [hfind] at hlk
        rw [find?_append_of_some _ b [(k, [v])] e hfind]
        exact hlk
    | none =>
      unfold merge_bucket_lookup at hlk ⊢
      rw [Option.map_eq_none'] at hlk
      rw [Option.map_eq_none']
      rw [List.find?_eq_none] at hlk
      rw [List.find?_eq_none]
      intro a ha
      rcases List.mem_append.mp ha with ha | ha
      · exact hlk a ha
      · simp only [List.mem_singleton] at ha
        subst ha
        intro hh
        exact h (beq_iff_eq.mp hh).symm

theorem selection_map_lookup_mem (m : NormalizedSelectionMap)
    (k : NormalizedSelectionKey) (v : NormalizedSelection)
    (h : NormalizedSelectionMap.lookup m k = some v) : k ∈ m.map Prod.fst := by
  unfold NormalizedSelectionMap.lookup at h
  cases hfind : m.find? (fun e => e.1 == k) with
  | none => rw [hfind] at h; exact absurd h (by simp)
  | some e =>
    have hmem := List.mem_of_find?_eq_some hfind
    have hpred := List.find?_some hfind
    exact List.mem_map.mpr ⟨e, hmem, beq_iff_eq.mp hpred⟩

theorem selection_map_lookup_none_iff (m : NormalizedSelectionMap)
    (k : NormalizedSelectionKey) :
    NormalizedSelectionMap.lookup m k = none ↔ k ∉ m.map Prod.fst := by
  unfold NormalizedSelectionMap.lookup
  rw [Option.map_eq_none', List.find?_eq_none]
  constructor
  · intro h hk
    obtain ⟨e, he, hek⟩ := List.mem_map.mp hk
    exact h e he (beq_iff_eq.mpr hek)
  · intro h e he hek
    exact h (List.mem_map.mpr ⟨e, he, beq_iff_eq.mp hek⟩)

theorem selection_map_lookup_of_nodup :
    ∀ (m : NormalizedSelectionMap), (m.map Prod.fst).Nodup →
    ∀ e ∈ m, NormalizedSelectionMap.lookup m e.1 = some e.2 := by
  intro m
  induction m with
  | nil => intro _ e he; simp at he
  | cons a rest ih =>
    intro hnodup e he
    simp only [List.map_cons, List.nodup_cons] at hnodup
    unfold NormalizedSelectionMap.lookup
    rcases List.mem_cons.mp he with he | he
    · subst he
      simp only [List.find?_cons, beq_self_eq_true]
      rfl
    · have hne : (a.1 == e.1) = false := by
        simp only [beq_eq_false_iff_ne, ne_eq]
        intro hh
        exact hnodup.1 (hh ▸ List.mem_map.mpr ⟨e, he, rfl⟩)
      simp only [List.find?_cons, hne]
      exact ih hnodup.2 e he

/-- The first merge loop appends exactly the first-occurrence new keys, in
order, and never disturbs the existing entries. -/
theorem merge_split_selections_keys :
    ∀ (others : List NormalizedSelection) (m : NormalizedSelectionMap) fields
      fragment_spreads inline_fragments m1 fields1 fragment_spreads1
      inline_fragments1,
    merge_split_selections m fields fragment_spreads inline_fragments others =
      .ok (m1, fields1, fragment_spreads1, inline_fragments1) →
    m1.map Prod.fst = m.map Prod.fst ++ new_keys (m.map Prod.fst) others ∧
    ∀ e ∈ m, e ∈ m1 := by
  intro others
  induction others with
  | nil =>
    intro m f fs ifs m1 f1 fs1 ifs1 h
    unfold merge_split_selections at h
    injection h with h
    injection h with h1 _
    subst h1
    exact ⟨by simp [new_keys], fun e he => he⟩
  | cons s rest ih =>
    intro m f fs ifs m1 f1 fs1 ifs1 h
    unfold merge_split_selections at h
    dsimp only at h
    cases hlk : NormalizedSelectionMap.lookup m s.key with
    | some existing =>
      rw [hlk] at h
      have hmemk : s.key ∈ m.map Prod.fst := selection_map_lookup_mem m s.key existing hlk
      rw [new_keys_cons, if_pos hmemk]
      cases existing with
      | field ed ess esib =>
        cases s with
        | field d ss sib => exact ih m (merge_bucket_push f (NormalizedSelection.key (.field d ss sib)) (d, ss, sib)) fs ifs m1 f1 fs1 ifs1 h
        | fragmentSpread d ss => exact absurd h (by simp)
        | inlineFragment d ss => exact absurd h (by simp)
      | fragmentSpread ed ess =>
        cases s with
        | field d ss sib => exact absurd h (by simp)
        | fragmentSpread d ss => exact ih m f (merge_bucket_push fs (NormalizedSelection.key (.fragmentSpread d ss)) (d, ss)) ifs m1 f1 fs1 ifs1 h
        | inlineFragment d ss => exact absurd h (by simp)
      | inlineFragment ed ess =>
        cases s with
        | field d ss sib => exact absurd h (by simp)
        | fragmentSpread d ss => exact absurd h (by simp)
        | inlineFragment d ss => exact ih m f fs (merge_bucket_push ifs (NormalizedSelection.key (.inlineFragment d ss)) (d, ss)) m1 f1 fs1 ifs1 h
    | none =>
      rw [hlk] at h
      have hnot : s.key ∉ m.map Prod.fst :=
        (selection_map_lookup_none_iff m s.key).mp hlk
      unfold NormalizedSelectionMap.vacant_insert at h
      rw [if_pos rfl] at h
      dsimp only at h
      obtain ⟨hkeys, hpres⟩ :=
        ih (m ++ [(s.key, s)]) f fs ifs m1 f1 fs1 ifs1 h
      constructor
      · rw [hkeys, new_keys_cons, if_neg hnot]
        simp [List.append_assoc]
      · intro e he
        exact hpres e (List.mem_append.mpr (Or.inl he))

/-- A key no incoming selection carries keeps its (absent) buckets through the
first merge loop. -/
theorem merge_split_selections_untouched :
    ∀ (others : List NormalizedSelection) (m : NormalizedSelectionMap) f fs ifs
      m1 f1 fs1 ifs1,
    merge_split_selections m f fs ifs others = .ok (m1, f1, fs1, ifs1) →
    ∀ k, (∀ s ∈ others, s.key ≠ k) →
    merge_bucket_lookup f1 k = merge_bucket_lookup f k ∧
    merge_bucket_lookup fs1 k = merge_bucket_lookup fs k ∧
    merge_bucket_lookup ifs1 k = merge_bucket_lookup ifs k := by
  intro others
  induction others with
  | nil =>
    intro m f fs ifs m1 f1 fs1 ifs1 h k _
    unfold merge_split_selections at h
    injection h with h
    injection h with _ h
    injection h with h1 h
    injection h with h2 h3
    subst h1; subst h2; subst h3
    exact ⟨rfl, rfl, rfl⟩
  | cons s rest ih =>
    intro m f fs ifs m1 f1 fs1 ifs1 h k hne
    have hsk : s.key ≠ k := hne s (by simp)
    have hne' : ∀ s' ∈ rest, s'.key ≠ k := fun s' hs' => hne s' (by simp [hs'])
    unfold merge_split_selections at h
    dsimp only at h
    cases hlk : NormalizedSelectionMap.lookup m s.key with
    | some existing =>
      rw [hlk] at h
      cases existing with
      | field ed ess esib =>
        cases s with
        | field d ss sib =>
          obtain ⟨h1, h2, h3⟩ := ih m _ fs ifs m1 f1 fs1 ifs1 h k hne'
          rw [merge_bucket_lookup_push_ne _ _ _ _ (fun hh => hsk hh.symm)] at h1
          exact ⟨h1, h2, h3⟩
        | fragmentSpread d ss => exact absurd h (by simp)
        | inlineFragment d ss => exact absurd h (by simp)
      | fragmentSpread ed ess =>
        cases s with
        | field d ss sib => exact absurd h (by simp)
        | fragmentSpread d ss =>
          obtain ⟨h1, h2, h3⟩ := ih m f _ ifs m1 f1 fs1 ifs1 h k hne'
          rw [merge_bucket_lookup_push_ne _ _ _ _ (fun hh => hsk hh.symm)] at h2
          exact ⟨h1, h2, h3⟩
        | inlineFragment d ss => exact absurd h (by simp)
      | inlineFragment ed ess =>
        cases s with
        | field d ss sib => exact absurd h (by simp)
        | fragmentSpread d ss => exact absurd h (by simp)
        | inlineFragment d ss =>
          obtain ⟨h1, h2, h3⟩ := ih m f fs _ m1 f1 fs1 ifs1 h k hne'
          rw [merge_bucket_lookup_push_ne _ _ _ _ (fun hh => hsk hh.symm)] at h3
          exact ⟨h1, h2, h3⟩
    | none =>
      rw [hlk] at h
      unfold NormalizedSelectionMap.vacant_insert at h
      rw [if_pos rfl] at h
      dsimp only at h
      exact ih (m ++ [(s.key, s)]) f fs ifs m1 f1 fs1 ifs1 h k hne'

/-- The field bucket the first merge loop builds for a key whose map entry is a
field selection: exactly the payloads of the incoming selections carrying that
key — which the run's success forces to be field selections — in order. -/
theorem merge_split_selections_field_bucket :
    ∀ (others : List NormalizedSelection) (m : NormalizedSelectionMap) f fs ifs
      m1 f1 fs1 ifs1,
    merge_split_selections m f fs ifs others = .ok (m1, f1, fs1, ifs1) →
    (m.map Prod.fst).Nodup →
    ∀ k d0 ss0 sib0, (k, NormalizedSelection.field d0 ss0 sib0) ∈ m →
    ∃ payloads,
      List.Forall₂ (fun s (p : FieldSelectionPayload) => s = .field p.1 p.2.1 p.2.2)
        (others.filter (fun s => s.key == k)) payloads ∧
      merge_bucket_lookup f1 k = bucket_extend (merge_bucket_lookup f k) payloads := by
  intro others
  induction others with
  | nil =>
    intro m f fs ifs m1 f1 fs1 ifs1 h _ k d0 ss0 sib0 _
    unfold merge_split_selections at h
    injection h with h
    injection h with _ h
    injection h with h1 _
    subst h1
    exact ⟨[], List.Forall₂.nil, (bucket_extend_nil _).symm⟩
  | cons s rest ih =>
    intro m f fs ifs m1 f1 fs1 ifs1 h hnodup k d0 ss0 sib0 hmem
    have hlk0 : NormalizedSelectionMap.lookup m k =
        some (NormalizedSelection.field d0 ss0 sib0) :=
      selection_map_lookup_of_nodup m hnodup (k, .field d0 ss0 sib0) hmem
    unfold merge_split_selections at h
    dsimp only at h
    cases hlk : NormalizedSelectionMap.lookup m s.key with
    | some existing =>
      rw [hlk] at h
      cases existing with
      | field ed ess esib =>
        cases s with
        | field d ss sib =>
          by_cases hk : NormalizedSelection.key (.field d ss sib) = k
          · rw [hk] at h
            obtain ⟨payloads', hF, hB⟩ :=
              ih m _ fs ifs m1 f1 fs1 ifs1 h hnodup k d0 ss0 sib0 hmem
            rw [merge_bucket_lookup_push_self, bucket_extend_push] at hB
            refine ⟨(d, ss, sib) :: payloads', ?_, hB⟩
            have hbool : (NormalizedSelection.key (.field d ss sib) == k) = true :=
              beq_iff_eq.mpr hk
            simp only [List.filter_cons, hbool, if_true]
            exact List.Forall₂.cons rfl hF
          · obtain ⟨payloads', hF, hB⟩ :=
              ih m _ fs ifs m1 f1 fs1 ifs1 h hnodup k d0 ss0 sib0 hmem
            rw [merge_bucket_lookup_push_ne _ _ _ _ (fun hh => hk hh.symm)] at hB
            refine ⟨payloads', ?_, hB⟩
            have hbool : (NormalizedSelection.key (.field d ss sib) == k) = false :=
              beq_eq_false_iff_ne.mpr hk
            simp only [List.filter_cons, hbool, if_false]
            exact hF
        | fragmentSpread d ss => exact absurd h (by simp)
        | inlineFragment d ss => exact absurd h (by simp)
      | fragmentSpread ed ess =>
        cases s with
        | field d ss sib => exact absurd h (by simp)
        | fragmentSpread d ss =>
          have hk : NormalizedSelection.key (.fragmentSpread d ss) ≠ k := by
            intro hk
            rw [hk, hlk0] at hlk
            simp at hlk
          obtain ⟨payloads', hF, hB⟩ :=
            ih m f _ ifs m1 f1 fs1 ifs1 h hnodup k d0 ss0 sib0 hmem
          refine ⟨payloads', ?_, hB⟩
          have hbool : (NormalizedSelection.key (.fragmentSpread d ss) == k) = false :=
            beq_eq_false_iff_ne.mpr hk
          simp only [List.filter_cons, hbool, if_false]
          exact hF
        | inlineFragment d ss => exact absurd h (by simp)
      | inlineFragment ed ess =>
        cases s with
        | field d ss sib => exact absurd h (by simp)
        | fragmentSpread d ss => exact absurd h (by simp)
        | inlineFragment d ss =>
          have hk : NormalizedSelection.key (.inlineFragment d ss) ≠ k := by
            intro hk
            rw [hk, hlk0] at hlk
            simp at hlk
          obtain ⟨payloads', hF, hB⟩ :=
            ih m f fs _ m1 f1 fs1 ifs1 h hnodup k d0 ss0 sib0 hmem
          refine ⟨payloads', ?_, hB⟩
          have hbool : (NormalizedSelection.key (.inlineFragment d ss) == k) = false :=
            beq_eq_false_iff_ne.mpr hk
          simp only [List.filter_cons, hbool, if_false]
          exact hF
    | none =>
      rw [hlk] at h
      have hnot : s.key ∉ m.map Prod.fst :=
        (selection_map_lookup_none_iff m s.key).mp hlk
      have hkmem : k ∈ m.map Prod.fst :=
        List.mem_map.mpr ⟨(k, .field d0 ss0 sib0), hmem, rfl⟩
      have hsk : s.key ≠ k := fun hh => hnot (hh ▸ hkmem)
      unfold NormalizedSelectionMap.vacant_insert at h
      rw [if_pos rfl] at h
      dsimp only at h
      have hnodup' : (((m ++ [(s.key, s)]).map Prod.fst)).Nodup := by
        rw [List.map_append]
        simp only [List.map_cons, List.map_nil]
        rw [List.nodup_append]
        refine ⟨hnodup, by simp, ?_⟩
        intro a ha hb
        simp only [List.mem_singleton] at hb
        subst hb
        exact hnot ha
      obtain ⟨payloads', hF, hB⟩ :=
        ih (m ++ [(s.key, s)]) f fs ifs m1 f1 fs1 ifs1 h hnodup' k d0 ss0 sib0
          (List.mem_append.mpr (Or.inl hmem))
      refine ⟨payloads', ?_, hB⟩
      have hbool : (s.key == k) = false := beq_eq_false_iff_ne.mpr hsk
      simp only [List.filter_cons, hbool, if_false]
      exact hF

/-- What the second merge loop does entrywise: keys and positions are
untouched; an entry whose key has no bucket (of its kind) is kept verbatim; a
field entry whose key has a field bucket is replaced by the successful per-kind
merge of its payload with the bucket. -/
theorem merge_apply_buckets_spec
    (rec : NormalizedSelectionMap → List NormalizedSelection →
      Except FederationError NormalizedSelectionMap)
    (f : List (NormalizedSelectionKey × List FieldSelectionPayload))
    (fs : List (NormalizedSelectionKey × List FragmentSpreadSelectionPayload))
    (ifs : List (NormalizedSelectionKey × List InlineFragmentSelectionPayload)) :
    ∀ (m1 result : NormalizedSelectionMap),
    merge_apply_buckets rec f fs ifs m1 = .ok result →
    result.map Prod.fst = m1.map Prod.fst ∧
    (∀ k d ss sib, (k, NormalizedSelection.field d ss sib) ∈ m1 →
      merge_bucket_lookup f k = none →
      (k, NormalizedSelection.field d ss sib) ∈ result) ∧
    (∀ k d ss, (k, NormalizedSelection.fragmentSpread d ss) ∈ m1 →
      merge_bucket_lookup fs k = none →
      (k, NormalizedSelection.fragmentSpread d ss) ∈ result) ∧
    (∀ k d ss, (k, NormalizedSelection.inlineFragment d ss) ∈ m1 →
      merge_bucket_lookup ifs k = none →
      (k, NormalizedSelection.inlineFragment d ss) ∈ result) ∧
    (∀ k d ss sib others1, (k, NormalizedSelection.field d ss sib) ∈ m1 →
      merge_bucket_lookup f k = some others1 →
      ∃ d' ss' sib',
        field_selection_value_merge_into_aux rec (d, ss, sib) others1 =
          .ok (d', ss', sib') ∧
        (k, NormalizedSelection.field d' ss' sib') ∈ result) := by
  intro m1
  induction m1 with
  | nil =>
    intro result h
    unfold merge_apply_buckets at h
    injection h with h
    subst h
    exact ⟨rfl, fun k d ss sib hm _ => by simp at hm,
      fun k d ss hm _ => by simp at hm, fun k d ss hm _ => by simp at hm,
      fun k d ss sib o hm _ => by simp at hm⟩
  | cons e rest ih =>
    intro result h
    obtain ⟨k0, v0⟩ := e
    unfold merge_apply_buckets at h
    cases v0 with
    | field d0 ss0 sib0 =>
      dsimp only at h
      cases hbk : merge_bucket_lookup f k0 with
      | some others0 =>
        rw [hbk] at h
        dsimp only at h
        cases hmerge : field_selection_value_merge_into_aux rec (d0, ss0, sib0)
            others0 with
        | error e0 => rw [hmerge] at h; exact absurd h (by simp)
        | ok p' =>
          obtain ⟨d', ss', sib'⟩ := p'
          rw [hmerge] at h
          dsimp only at h
          cases hrest : merge_apply_buckets rec f fs ifs rest with
          | error e0 => rw [hrest] at h; exact absurd h (by simp)
          | ok rest' =>
            rw [hrest] at h
            dsimp only at h
            injection h with h
            subst h
            obtain ⟨ih1, ih2, ih3, ih4, ih5⟩ := ih rest' hrest
            refine ⟨by simp [ih1], ?_, ?_, ?_, ?_⟩
            · intro k d ss sib hm hnone
              rcases List.mem_cons.mp hm with he | he
              · rw [Prod.mk.injEq] at he
                obtain ⟨hk, -⟩ := he
                rw [hk, hbk] at hnone
                exact absurd hnone (by simp)
              · exact List.mem_cons.mpr (Or.inr (ih2 k d ss sib he hnone))
            · intro k d ss hm hnone
              rcases List.mem_cons.mp hm with he | he
              · rw [Prod.mk.injEq] at he
                obtain ⟨-, hv⟩ := he
                simp at hv
              · exact List.mem_cons.mpr (Or.inr (ih3 k d ss he hnone))
            · intro k d ss hm hnone
              rcases List.mem_cons.mp hm with he | he
              · rw [Prod.mk.injEq] at he
                obtain ⟨-, hv⟩ := he
                simp at hv
              · exact List.mem_cons.mpr (Or.inr (ih4 k d ss he hnone))
            · intro k d ss sib others1 hm hsome
              rcases List.mem_cons.mp hm with he | he
              · rw [Prod.mk.injEq] at he
                obtain ⟨hk, hv⟩ := he
                injection hv with h1 h2 h3
                subst hk; subst h1; subst h2; subst h3
                rw [hbk] at hsome
                injection hsome with hsome
                subst hsome
                exact ⟨d', ss', sib', hmerge, by simp⟩
              · obtain ⟨d'', ss'', sib'', hm', hmem'⟩ :=
                  ih5 k d ss sib others1 he hsome
                exact ⟨d'', ss'', sib'', hm', List.mem_cons.mpr (Or.inr hmem')⟩
      | none =>
        rw [hbk] at h
        dsimp only at h
        cases hrest : merge_apply_buckets rec f fs ifs rest with
        | error e0 => rw [hrest] at h; exact absurd h (by simp)
        | ok rest' =>
          rw [hrest] at h
          dsimp only at h
          injection h with h
          subst h
          obtain ⟨ih1, ih2, ih3, ih4, ih5⟩ := ih rest' hrest
          refine ⟨by simp [ih1], ?_, ?_, ?_, ?_⟩
          · intro k d ss sib hm hnone
            rcases List.mem_cons.mp hm with he | he
            · rw [he]
              exact List.mem_cons.mpr (Or.inl rfl)
            · exact List.mem_cons.mpr (Or.inr (ih2 k d ss sib he hnone))
          · intro k d ss hm hnone
            rcases List.mem_cons.mp hm with he | he
            · rw [Prod.mk.injEq] at he
              obtain ⟨-, hv⟩ := he
              simp at hv
            · exact List.mem_cons.mpr (Or.inr (ih3 k d ss he hnone))
          · intro k d ss hm hnone
            rcases List.mem_cons.mp hm with he | he
            · rw [Prod.mk.injEq] at he
              obtain ⟨-, hv⟩ := he
              simp at hv
            · exact List.mem_cons.mpr (Or.inr (ih4 k d ss he hnone))
          · intro k d ss sib others1 hm hsome
            rcases List.mem_cons.mp hm with he | he
            · rw [Prod.mk.injEq] at he
              obtain ⟨hk, -⟩ := he
              rw [hk, hbk] at hsome
              exact absurd hsome (by simp)
            · obtain ⟨d'', ss'', sib'', hm', hmem'⟩ :=
                ih5 k d ss sib others1 he hsome
              exact ⟨d'', ss'', sib'', hm', List.mem_cons.mpr (Or.inr hmem')⟩
    | fragmentSpread d0 ss0 =>
      dsimp only at h
      cases hbk : merge_bucket_lookup fs k0 with
      | some others0 =>
        rw [hbk] at h
        dsimp only at h
        cases hmerge : fragment_spread_selection_value_merge_into (d0, ss0)
            others0 with
        | error e0 => rw [hmerge] at h; exact absurd h (by simp)
        | ok p' =>
          obtain ⟨d', ss'⟩ := p'
          rw [hmerge] at h
          dsimp only at h
          cases hrest : merge_apply_buckets rec f fs ifs rest with
          | error e0 => rw [hrest] at h; exact absurd h (by simp)
          | ok rest' =>
            rw [hrest] at h
            dsimp only at h
            injection h with h
            subst h
            obtain ⟨ih1, ih2, ih3, ih4, ih5⟩ := ih rest' hrest
            refine ⟨by simp [ih1], ?_, ?_, ?_, ?_⟩
            · intro k d ss sib hm hnone
              rcases List.mem_cons.mp hm with he | he
              · rw [Prod.mk.injEq] at he
                obtain ⟨-, hv⟩ := he
                simp at hv
              · exact List.mem_cons.mpr (Or.inr (ih2 k d ss sib he hnone))
            · intro k d ss hm hnone
              rcases List.mem_cons.mp hm with he | he
              · rw [Prod.mk.injEq] at he
                obtain ⟨hk, -⟩ := he
                rw [hk, hbk] at hnone
                exact absurd hnone (by simp)
              · exact List.mem_cons.mpr (Or.inr (ih3 k d ss he hnone))
            · intro k d ss hm hnone
              rcases List.mem_cons.mp hm with he | he
              · rw [Prod.mk.injEq] at he
                obtain ⟨-, hv⟩ := he
                simp at hv
              · exact List.mem_cons.mpr (Or.inr (ih4 k d ss he hnone))
            · intro k d ss sib others1 hm hsome
              rcases List.mem_cons.mp hm with he | he
              · rw [Prod.mk.injEq] at he
                obtain ⟨-, hv⟩ := he
                simp at hv
              · obtain ⟨d'', ss'', sib'', hm', hmem'⟩ :=
                  ih5 k d ss sib others1 he hsome
                exact ⟨d'', ss'', sib'', hm', List.mem_cons.mpr (Or.inr hmem')⟩
      | none =>
        rw [hbk] at h
        dsimp only at h
        cases hrest : merge_apply_buckets rec f fs ifs rest with
        | error e0 => rw [hrest] at h; exact absurd h (by simp)
        | ok rest' =>
          rw [hrest] at h
          dsimp only at h
          injection h with h
          subst h
          obtain ⟨ih1, ih2, ih3, ih4, ih5⟩ := ih rest' hrest
          refine ⟨by simp [ih1], ?_, ?_, ?_, ?_⟩
          · intro k d ss sib hm hnone
            rcases List.mem_cons.mp hm with he | he
            · rw [Prod.mk.injEq] at he
              obtain ⟨-, hv⟩ := he
              simp at hv
            · exact List.mem_cons.mpr (Or.inr (ih2 k d ss sib he hnone))
          · intro k d ss hm hnone
            rcases List.mem_cons.mp hm with he | he
            · rw [he]
              exact List.mem_cons.mpr (Or.inl rfl)
            · exact List.mem_cons.mpr (Or.inr (ih3 k d ss he hnone))
          · intro k d ss hm hnone
            rcases List.mem_cons.mp hm with he | he
            · rw [Prod.mk.injEq] at he
              obtain ⟨-, hv⟩ := he
              simp at hv
            · exact List.mem_cons.mpr (Or.inr (ih4 k d ss he hnone))
          · intro k d ss sib others1 hm hsome
            rcases List.mem_cons.mp hm with he | he
            · rw [Prod.mk.injEq] at he
              obtain ⟨-, hv⟩ := he
              simp at hv
            · obtain ⟨d'', ss'', sib'', hm', hmem'⟩ :=
                ih5 k d ss sib others1 he hsome
              exact ⟨d'', ss'', sib'', hm', List.mem_cons.mpr (Or.inr hmem')⟩
    | inlineFragment d0 ss0 =>
      dsimp only at h
      cases hbk : merge_bucket_lookup ifs k0 with
      | some others0 =>
        rw [hbk] at h
        dsimp only at h
        cases hmerge : inline_fragment_selection_value_merge_into_aux rec
            (d0, ss0) others0 with
        | error e0 => rw [hmerge] at h; exact absurd h (by simp)
        | ok p' =>
          obtain ⟨d', ss'⟩ := p'
          rw [hmerge] at h
          dsimp only at h
          cases hrest : merge_apply_buckets rec f fs ifs rest with
          | error e0 => rw [hrest] at h; exact absurd h (by simp)
          | ok rest' =>
            rw [hrest] at h
            dsimp only at h
            injection h with h
            subst h
            obtain ⟨ih1, ih2, ih3, ih4, ih5⟩ := ih rest' hrest
            refine ⟨by simp [ih1], ?_, ?_, ?_, ?_⟩
            · intro k d ss sib hm hnone
              rcases List.mem_cons.mp hm with he | he
              · rw [Prod.mk.injEq] at he
                obtain ⟨-, hv⟩ := he
                simp at hv
              · exact List.mem_cons.mpr (Or.inr (ih2 k d ss sib he hnone))
            · intro k d ss hm hnone
              rcases List.mem_cons.mp hm with he | he
              · rw [Prod.mk.injEq] at he
                obtain ⟨-, hv⟩ := he
                simp at hv
              · exact List.mem_cons.mpr (Or.inr (ih3 k d ss he hnone))
            · intro k d ss hm hnone
              rcases List.mem_cons.mp hm with he | he
              · rw [Prod.mk.injEq] at he
                obtain ⟨hk, -⟩ := he
                rw [hk, hbk] at hnone
                exact absurd hnone (by simp)
              · exact List.mem_cons.mpr (Or.inr (ih4 k d ss he hnone))
            · intro k d ss sib others1 hm hsome
              rcases List.mem_cons.mp hm with he | he
              · rw [Prod.mk.injEq] at he
                obtain ⟨-, hv⟩ := he
                simp at hv
              · obtain ⟨d'', ss'', sib'', hm', hmem'⟩ :=
                  ih5 k d ss sib others1 he hsome
                exact ⟨d'', ss'', sib'', hm', List.mem_cons.mpr (Or.inr hmem')⟩
      | none =>
        rw [hbk] at h
        dsimp only at h
        cases hrest : merge_apply_buckets rec f fs ifs rest with
        | error e0 => rw [hrest] at h; exact absurd h (by simp)
        | ok rest' =>
          rw [hrest] at h
          dsimp only at h
          injection h with h
          subst h
          obtain ⟨ih1, ih2, ih3, ih4, ih5⟩ := ih rest' hrest
          refine ⟨by simp [ih1], ?_, ?_, ?_, ?_⟩
          · intro k d ss sib hm hnone
            rcases List.mem_cons.mp hm with he | he
            · rw [Prod.mk.injEq] at he
              obtain ⟨-, hv⟩ := he
              simp at hv
            · exact List.mem_cons.mpr (Or.inr (ih2 k d ss sib he hnone))
          · intro k d ss hm hnone
            rcases List.mem_cons.mp hm with he | he
            · rw [Prod.mk.injEq] at he
              obtain ⟨-, hv⟩ := he
              simp at hv
            · exact List.mem_cons.mpr (Or.inr (ih3 k d ss he hnone))
          · intro k d ss hm hnone
            rcases List.mem_cons.mp hm with he | he
            · rw [he]
              exact List.mem_cons.mpr (Or.inl rfl)
            · exact List.mem_cons.mpr (Or.inr (ih4 k d ss he hnone))
          · intro k d ss sib others1 hm hsome
            rcases List.mem_cons.mp hm with he | he
            · rw [Prod.mk.injEq] at he
              obtain ⟨-, hv⟩ := he
              simp at hv
            · obtain ⟨d'', ss'', sib'', hm', hmem'⟩ :=
                ih5 k d ss sib others1 he hsome
              exact ⟨d'', ss'', sib'', hm', List.mem_cons.mpr (Or.inr hmem')⟩

/-- Applying empty buckets leaves the map unchanged. -/
theorem merge_apply_buckets_empty
    (rec : NormalizedSelectionMap → List NormalizedSelection →
      Except FederationError NormalizedSelectionMap) :
    ∀ m : NormalizedSelectionMap, merge_apply_buckets rec [] [] [] m = .ok m := by
  intro m
  induction m with
  | nil => rfl
  | cons e rest ih =>
    obtain ⟨k0, v0⟩ := e
    unfold merge_apply_buckets
    cases v0 with
    | field d0 ss0 sib0 =>
      rw [merge_bucket_lookup_nil, ih]
    | fragmentSpread d0 ss0 =>
      rw [merge_bucket_lookup_nil, ih]
      rfl
    | inlineFragment d0 ss0 =>
      rw [merge_bucket_lookup_nil, ih]
      rfl

/-- C5: a successful `merge_selections_into` lists the result's entries in the
insertion order of the first occurrence of each key — the existing entries'
keys stay, in order, as a prefix, and the first-occurrence new keys of the
incoming selections are appended at the end, in incoming order; an entry no
incoming selection targets is kept verbatim; and an existing (field) entry
whose key recurs among the incoming selections stays at its position, its
value replaced by the per-kind merge of its payload with the payloads of all
the incoming selections carrying its key, in order. -/
theorem merge_selections_into_first_occurrence_order
    (fuel : Nat) (m : NormalizedSelectionMap) (others : List NormalizedSelection)
    (result : NormalizedSelectionMap)
    (hnodup : (m.map Prod.fst).Nodup)
    (h : merge_selections_into (fuel + 1) m others = .ok result) :
    result.map Prod.fst = m.map Prod.fst ++ new_keys (m.map Prod.fst) others ∧
    (∀ e ∈ m, (∀ s ∈ others, s.key ≠ e.1) → e ∈ result) ∧
    (∀ k d0 ss0 sib0, (k, NormalizedSelection.field d0 ss0 sib0) ∈ m →
      ∃ payloads,
        List.Forall₂ (fun s (p : FieldSelectionPayload) => s = .field p.1 p.2.1 p.2.2)
          (others.filter (fun s => s.key == k)) payloads ∧
        (payloads = [] → (k, NormalizedSelection.field d0 ss0 sib0) ∈ result) ∧
        (payloads ≠ [] → ∃ d' ss' sib',
          field_selection_value_merge_into_aux
              (fun a b => merge_selections_into fuel a b) (d0, ss0, sib0) payloads =
            .ok (d', ss', sib') ∧
          (k, NormalizedSelection.field d' ss' sib') ∈ result)) := by
  unfold merge_selections_into at h
  by_cases hemp : others.isEmpty = true
  · rw [if_pos hemp] at h
    injection h with h
    subst h
    have hnil : others = [] := by simpa [List.isEmpty_iff] using hemp
    subst hnil
    refine ⟨by simp [new_keys], fun e he _ => he, ?_⟩
    intro k d0 ss0 sib0 hmem
    exact ⟨[], by simp, fun _ => hmem, fun hc => absurd rfl hc⟩
  · rw [if_neg hemp] at h
    cases hsplit : merge_split_selections m [] [] [] others with
    | error e0 => rw [hsplit] at h; exact absurd h (by simp)
    | ok out =>
      obtain ⟨m1, f1, fs1, ifs1⟩ := out
      rw [hsplit] at h
      dsimp only at h
      obtain ⟨hkeys, hpres⟩ :=
        merge_split_selections_keys others m [] [] [] m1 f1 fs1 ifs1 hsplit
      obtain ⟨a1, a2, a3, a4, a5⟩ :=
        merge_apply_buckets_spec (fun a b => merge_selections_into fuel a b)
          f1 fs1 ifs1 m1 result h
      refine ⟨by rw [a1, hkeys], ?_, ?_⟩
      · intro e he hne
        obtain ⟨hf, hfs, hifs⟩ :=
          merge_split_selections_untouched others m [] [] [] m1 f1 fs1 ifs1
            hsplit e.1 hne
        rw [merge_bucket_lookup_nil] at hf
        rw [merge_bucket_lookup_nil] at hfs
        rw [merge_bucket_lookup_nil] at hifs
        obtain ⟨k, v⟩ := e
        cases v with
        | field d ss sib => exact a2 k d ss sib (hpres _ he) hf
        | fragmentSpread d ss => exact a3 k d ss (hpres _ he) hfs
        | inlineFragment d ss => exact a4 k d ss (hpres _ he) hifs
      · intro k d0 ss0 sib0 hmem
        obtain ⟨payloads, hF, hB⟩ :=
          merge_split_selections_field_bucket others m [] [] [] m1 f1 fs1 ifs1
            hsplit hnodup k d0 ss0 sib0 hmem
        rw [merge_bucket_lookup_nil] at hB
        refine ⟨payloads, hF, ?_, ?_⟩
        · intro hp0
          subst hp0
          rw [bucket_extend_nil] at hB
          exact a2 k d0 ss0 sib0 (hpres _ hmem) hB
        · intro hpne
          cases payloads with
          | nil => exact absurd rfl hpne
          | cons p ps =>
            have hB' : merge_bucket_lookup f1 k = some (p :: ps) := by
              rw [hB]
              rfl
            exact a5 k d0 ss0 sib0 (p :: ps) (hpres _ hmem) hB'

/-- Witness for C5: merging the selections `[b, a-duplicate]` into the map
holding `a` keeps `a` first at its position (its payload merged with the
duplicate) and appends the new key `b` at the end. -/
theorem merge_selections_into_first_occurrence_order_witness :
    ((c5Map.map Prod.fst).Nodup ∧
      merge_selections_into 1 c5Map c5Others = .ok c5Result) ∧
    (c5Result.map Prod.fst =
        c5Map.map Prod.fst ++ new_keys (c5Map.map Prod.fst) c5Others ∧
      (∀ e ∈ c5Map, (∀ s ∈ c5Others, s.key ≠ e.1) → e ∈ c5Result) ∧
      (∀ k d0 ss0 sib0, (k, NormalizedSelection.field d0 ss0 sib0) ∈ c5Map →
        ∃ payloads,
          List.Forall₂ (fun s (p : FieldSelectionPayload) => s = .field p.1 p.2.1 p.2.2)
            (c5Others.filter (fun s => s.key == k)) payloads ∧
          (payloads = [] → (k, NormalizedSelection.field d0 ss0 sib0) ∈ c5Result) ∧
          (payloads ≠ [] → ∃ d' ss' sib',
            field_selection_value_merge_into_aux
                (fun a b => merge_selections_into 0 a b) (d0, ss0, sib0) payloads =
              .ok (d', ss', sib') ∧
            (k, NormalizedSelection.field d' ss' sib') ∈ c5Result))) :=
  ⟨⟨by decide, rfl⟩,
   merge_selections_into_first_occurrence_order 0 c5Map c5Others c5Result
     (by decide) rfl⟩

/-! ## C1 — `NamedFragments::rebase_on` -/

/-- C1: refuted by the code — on a table holding exactly one fragment that
satisfies the claim's keep-conditions (its type condition `T` is a composite
type of the destination schema, second conjunct, and its body rebases
successfully onto `T` to a two-selection set that passes the worth-using test,
third conjunct), `NamedFragments::rebase_on` does not return a table containing
the fragment: it panics — the rebased body is handed to
`NormalizedSelectionSet::normalize`, whose per-selection
`NormalizedSelection::normalize` is `todo!()`, modelled as the distinguished
`unimplemented` error (first conjunct).  (Were the panic not reached, the
fragment would still be lost: the mapper in `rebase_on` constructs
`NormalizedFragment::new(..)` but discards it and falls through to `None` on
every path.) -/
theorem namedfragments_rebase_on_panics_on_qualifying_fragment :
    c1Frags.rebase_on exSchema = .error .unimplemented ∧
    exSchema.get_composite_type c1Frag.type_condition_position.type_name =
      some (.objectPos "T") ∧
    ∃ rebased,
      c1Frag.selection_set.rebase_on (.objectPos "T") c1Frags exSchema
          .ignoreError = .ok rebased ∧
      NamedFragments.is_selection_set_worth_using rebased = true :=
  ⟨rfl, rfl, ⟨_, rfl, rfl⟩⟩

/-! ## C9 — the selection map's key/value invariant -/

/-- C9: every mutation operation of `NormalizedSelectionMap` preserves the
invariant that each entry's key equals the computed key of its stored value;
inserting a selection into a vacant entry under a key differing from the
selection's own key fails with an internal error (so no map is produced), and
a vacant insertion under the matching key preserves the invariant. -/
theorem selection_map_mutations_preserve_invariant
    (m : NormalizedSelectionMap) (hm : selection_map_invariant m) :
    selection_map_invariant NormalizedSelectionMap.new ∧
    (∀ v, selection_map_invariant (m.insert v)) ∧
    (∀ k, selection_map_invariant (m.remove k)) ∧
    (∀ k ss, selection_map_invariant (m.set_field_selection_set k ss)) ∧
    (∀ k sib, selection_map_invariant (m.set_field_sibling_typename k sib)) ∧
    (∀ k ss, selection_map_invariant (m.set_inline_fragment_selection_set k ss)) ∧
    (∀ k v, k ≠ v.key →
      m.vacant_insert k v =
        .error (.internal "Key mismatch when inserting selection into vacant entry")) ∧
    (∀ k v m', m.vacant_insert k v = .ok m' → selection_map_invariant m') := by
  refine ⟨?_, ?_, ?_, ?_, ?_, ?_, ?_, ?_⟩
  · intro e he
    simp [NormalizedSelectionMap.new] at he
  · intro v
    unfold NormalizedSelectionMap.insert
    split
    · intro e he
      obtain ⟨a, ha, hmap⟩ := List.mem_map.mp he
      by_cases hk : a.1 == v.key
      · simp only [hk, if_true] at hmap
        subst hmap
        simpa using (beq_iff_eq.mp hk)
      · simp only [hk, if_false] at hmap
        subst hmap
        exact hm a ha
    · intro e he
      rcases List.mem_append.mp he with h | h
      · exact hm e h
      · simp only [List.mem_singleton] at h
        subst h
        rfl
  · intro k e he
    exact hm e (List.mem_of_mem_filter he)
  · intro k ss e he
    obtain ⟨a, ha, hmap⟩ := List.mem_map.mp he
    have hak := hm a ha
    by_cases hk : a.1 == k
    · simp only [hk, if_true] at hmap
      cases hv : a.2 with
      | field d oldss oldsib =>
        rw [hv] at hmap
        subst hmap
        rw [hv] at hak
        exact hak
      | fragmentSpread d ss' =>
        rw [hv] at hmap
        subst hmap
        simpa [hv] using hak
      | inlineFragment d ss' =>
        rw [hv] at hmap
        subst hmap
        simpa [hv] using hak
    · simp only [hk, if_false] at hmap
      subst hmap
      exact hak
  · intro k sib e he
    obtain ⟨a, ha, hmap⟩ := List.mem_map.mp he
    have hak := hm a ha
    by_cases hk : a.1 == k
    · simp only [hk, if_true] at hmap
      cases hv : a.2 with
      | field d oldss oldsib =>
        rw [hv] at hmap
        subst hmap
        rw [hv] at hak
        exact hak
      | fragmentSpread d ss' =>
        rw [hv] at hmap
        subst hmap
        simpa [hv] using hak
      | inlineFragment d ss' =>
        rw [hv] at hmap
        subst hmap
        simpa [hv] using hak
    · simp only [hk, if_false] at hmap
      subst hmap
      exact hak
  · intro k ss e he
    obtain ⟨a, ha, hmap⟩ := List.mem_map.mp he
    have hak := hm a ha
    by_cases hk : a.1 == k
    · simp only [hk, if_true] at hmap
      cases hv : a.2 with
      | field d oldss oldsib =>
        rw [hv] at hmap
        subst hmap
        simpa [hv] using hak
      | fragmentSpread d ss' =>
        rw [hv] at hmap
        subst hmap
        simpa [hv] using hak
      | inlineFragment d ss' =>
        rw [hv] at hmap
        subst hmap
        rw [hv] at hak
        exact hak
    · simp only [hk, if_false] at hmap
      subst hmap
      exact hak
  · intro k v hne
    unfold NormalizedSelectionMap.vacant_insert
    simp [hne]
  · intro k v m' hok
    unfold NormalizedSelectionMap.vacant_insert at hok
    split at hok
    · rename_i hkv
      injection hok with hok
      subst hok
      intro e he
      rcases List.mem_append.mp he with h | h
      · exact hm e h
      · simp only [List.mem_singleton] at h
        subst h
        exact hkv
    · exact absurd hok (by simp)

/-- Witness for C9: the invariant facts at a concrete one-entry map, a wrongly
keyed vacant insertion (rejected), and a correctly keyed one. -/
theorem selection_map_mutations_preserve_invariant_witness :
    selection_map_invariant
      [((exFieldSel (.objectPos "T") "a").key, exFieldSel (.objectPos "T") "a")] ∧
    ((exFieldSel (.objectPos "T") "b").key ≠ (exFieldSel (.objectPos "T") "a").key) ∧
    (NormalizedSelectionMap.vacant_insert
        [((exFieldSel (.objectPos "T") "a").key, exFieldSel (.objectPos "T") "a")]
        (exFieldSel (.objectPos "T") "b").key (exFieldSel (.objectPos "T") "a") =
      .error (.internal "Key mismatch when inserting selection into vacant entry")) ∧
    (∀ k, selection_map_invariant
      (NormalizedSelectionMap.remove
        [((exFieldSel (.objectPos "T") "a").key, exFieldSel (.objectPos "T") "a")] k)) := by
  have hinv : selection_map_invariant
      [((exFieldSel (.objectPos "T") "a").key, exFieldSel (.objectPos "T") "a")] := by
    intro e he
    simp only [List.mem_singleton] at he
    subst he
    rfl
  have hne : (exFieldSel (.objectPos "T") "b").key ≠ (exFieldSel (.objectPos "T") "a").key := by
    decide
  exact ⟨hinv, hne,
    (selection_map_mutations_preserve_invariant _ hinv).2.2.2.2.2.2.1
      (exFieldSel (.objectPos "T") "b").key (exFieldSel (.objectPos "T") "a") hne,
    (selection_map_mutations_preserve_invariant _ hinv).2.2.1⟩

end Federation
